import Mathlib

/-!
Verification of the DART disclosure-report pipelines
(`major_report_pipeline.py`, `ri_pipeline.py`, `app.py`).

The Python data frames are modelled as Lean lists of row structures; the
pandas operations used by the code (filter, stable `mergesort` sort,
`drop_duplicates`, left/inner merge, concat) are modelled as list functions.
`sort_values(kind="mergesort")` is a stable sort with respect to a total
preorder; every stable sort produces the same output, so it is modelled with
`List.insertionSort` over the corresponding total preorder.

Regular-expression operations from the source are translated into
equivalent character-list scanners; each definition's doc comment names the
Python function and regex it embeds.
-/

namespace DartPipeline

/-! ### TitleNormalizer (`normalize_report_nm`, major_report_pipeline.py lines 57-60)

The Python code is
`s = re.sub(r"^\s*(\[[^\]]+\]\s*)+", "", s); return s.strip()`.
-/

/-- Characters matched by the regex class `\s` and stripped by `str.strip`. -/
def wsChar (c : Char) : Bool := c.isWhitespace

/-- Matches one bracketed group `\[[^\]]+\]\s*` at the head of the character
list (the repeated unit of the regex in `normalize_report_nm`), returning the
remainder.  `[^\]]+` is greedy and cannot cross `]`, so it deterministically
takes all characters up to the first `]`; the match requires an opening `[`,
a nonempty body, and the closing `]` (checked as the head of the remainder
after the body); trailing `\s*` is consumed greedily. -/
def matchGroup (s : List Char) : Option (List Char) :=
  match s with
  | [] => none
  | c :: rest =>
    if c = '[' ∧ rest.takeWhile (fun x => x ≠ ']') ≠ [] ∧
        (rest.dropWhile (fun x => x ≠ ']')).head? = some ']' then
      some ((rest.dropWhile (fun x => x ≠ ']')).tail.dropWhile wsChar)
    else none

/-- Strips as many further bracketed groups as possible (the `+` in the
regex).  Fuel-based recursion; each successful `matchGroup` consumes at least
three characters, so fuel `s.length` always suffices. -/
def matchMany : Nat → List Char → List Char
  | 0, s => s
  | fuel + 1, s =>
    match matchGroup s with
    | some rest => matchMany fuel rest
    | none => s

/-- Models `re.sub(r"^\s*(\[[^\]]+\]\s*)+", "", s)`: if, after the leading
whitespace, at least one bracketed group matches, the whole leading run
(whitespace and all groups) is removed; otherwise — the regex requires at
least one group — the string is unchanged. -/
def subLeadingGroups (s : List Char) : List Char :=
  match matchGroup (s.dropWhile wsChar) with
  | some rest => matchMany s.length rest
  | none => s

/-- Models Python `str.strip()`. -/
def stripEnds (s : List Char) : List Char :=
  ((s.dropWhile wsChar).reverse.dropWhile wsChar).reverse

/-- Model of `normalize_report_nm` (major_report_pipeline.py lines 57-60). -/
def normalize_report_nm (s : String) : String :=
  ⟨stripEnds (subLeadingGroups s.data)⟩

/-! ### Substring containment

Python's `needle in hay` on strings (used by `_build_report_df` and the
`str.contains` plain-text filters) is contiguous-substring containment. -/

/-- Decides whether `needle` occurs as a contiguous sublist of `hay`. -/
def hasSub (needle : List Char) : List Char → Bool
  | [] => needle.isEmpty
  | c :: t => needle.isPrefixOf (c :: t) || hasSub needle t

/-- Python `needle in hay` on strings. -/
def containsStr (needle hay : String) : Bool := hasSub needle.data hay.data

/-! ### CategoryFilter (major: `get_major_report_list`, lines 107-119;
rights-issue: `_build_report_df`, ri_pipeline.py lines 133-147) -/

/-- The fixed allow-list `TARGET_REPORT_TITLES` (major_report_pipeline.py
lines 25-29). -/
def TARGET_REPORT_TITLES : List String :=
  ["주요사항보고서(유상증자결정)",
   "주요사항보고서(전환사채권발행결정)",
   "주요사항보고서(신주인수권부사채발행결정)"]

/-- A raw filing record from the paginated list endpoint (the fields the
pipelines inspect). -/
structure ListRec where
  corp_code : String
  corp_name : String
  rcept_no : String
  rcept_dt : String
  report_nm : String
  deriving DecidableEq, Repr

/-- The derived detail-page URL (`f"https://dart.fss.or.kr/dsaf001/main.do?rcpNo={x}"`). -/
def urlOf (rcept_no : String) : String :=
  "https://dart.fss.or.kr/dsaf001/main.do?rcpNo=" ++ rcept_no

/-- A list row with its attached URL column. -/
structure MajorListRow where
  lrow : ListRec
  url : String
  deriving DecidableEq, Repr

/-- Pure core of `get_major_report_list` (major_report_pipeline.py lines
107-119) applied to the already-fetched raw rows: keep the rows whose
normalized title is a member (`Series.isin`, exact equality) of the fixed
allow-list, attach the detail URL, drop the helper normalized column. -/
def get_major_report_list (rows : List ListRec) : List MajorListRow :=
  (rows.filter (fun r => decide (normalize_report_nm r.report_nm ∈ TARGET_REPORT_TITLES))).map
    (fun r => { lrow := r, url := urlOf r.rcept_no })

/-- Pure core of `_build_report_df` (ri_pipeline.py lines 133-147) applied to
the already-fetched items: keep the items whose RAW title contains
`report_name` as a substring (`report_name in (item.get("report_nm") or "")`),
then, when a secondary filter text is given, keep only titles containing it
(`str.contains`, modelled for plain-text patterns), then attach the URL. -/
def build_report_df (report_name : String) (report_filter_text : Option String)
    (items : List ListRec) : List MajorListRow :=
  let filtered : List ListRec := items.filter (fun it => containsStr report_name it.report_nm)
  let filtered2 : List ListRec :=
    match report_filter_text with
    | some txt => filtered.filter (fun it => containsStr txt it.report_nm)
    | none => filtered
  filtered2.map (fun r => { lrow := r, url := urlOf r.rcept_no })

/-! ### Generic de-duplication

`DataFrame.drop_duplicates(subset=keys)` keeps the FIRST row for each key
(`drop_duplicates()` with no subset keys on the full row). -/

/-- Helper for `dedupByKey`: drop every row whose key has already been seen. -/
def dedupByKeyAux {α κ : Type} [DecidableEq κ] (key : α → κ) (seen : List κ) :
    List α → List α
  | [] => []
  | x :: xs =>
    if key x ∈ seen then dedupByKeyAux key seen xs
    else x :: dedupByKeyAux key (key x :: seen) xs

/-- Models `drop_duplicates(subset=keys)`: keep the first row for each key
value, preserving order. -/
def dedupByKey {α κ : Type} [DecidableEq κ] (key : α → κ) (l : List α) : List α :=
  dedupByKeyAux key [] l

/-! ### Code-point string comparison

Python compares strings lexicographically by code point.  The core
`String` order instances do not reduce well inside the kernel, so the model
uses an explicit code-point comparison. -/

/-- Lexicographic code-point comparison on character lists (`a ≤ b`). -/
def listLe : List Char → List Char → Bool
  | [], _ => true
  | _ :: _, [] => false
  | a :: as, b :: bs =>
    if a.toNat < b.toNat then true
    else if b.toNat < a.toNat then false
    else listLe as bs

/-- Python string `a <= b` (code-point lexicographic). -/
def strLe (a b : String) : Bool := listLe a.data b.data

/-! ### DetailEnricher, major pipeline (`fetch_paid_increase_decision_df`,
major_report_pipeline.py lines 122-200)

The widened-window request parameter (`bgn_for_api`, requested start minus
8 months, line 130) only affects which rows the secondary endpoint returns;
the response is modelled by an oracle from company code to `MajorResp`, so
the widened query is implicit in the oracle. -/

/-- An item returned by the per-company `piicDecsn` endpoint.  Only the
fields the enrichment logic inspects are named; the rest of the
category-specific payload is abstracted as `payload` (overlapping non-key
columns and merge suffixing are not needed by any claim). -/
structure PiicItem where
  rcept_no : String
  corp_code : String
  payload : String
  deriving DecidableEq, Repr

/-- Response of one per-company secondary-endpoint call in the major
pipeline.  `httpError` models a raised `requests` exception or JSON decode
failure (caught by the `try/except` at lines 148-153); otherwise the JSON
carries a status and an item list.  `hasCorpCol` models whether the returned
frame has a `corp_code` column (lines 169-170 patch it in when missing). -/
inductive MajorResp where
  | httpError
  | ok (status : String) (hasCorpCol : Bool) (items : List PiicItem)

/-- One iteration of the per-company loop (lines 141-173): an HTTP error, a
non-success status, and an empty list each skip the company (the
`df_api.empty` re-check at line 165 is subsumed: a frame built from a
nonempty list is nonempty); otherwise the returned items — with `corp_code`
patched in when the column is absent — become this company's chunk. -/
def majorStep (oracle : String → MajorResp) (c : String) : Option (List PiicItem) :=
  match oracle c with
  | .httpError => none
  | .ok status hasCorpCol items =>
    if status ≠ "000" then none
    else if items = [] then none
    else some (if hasCorpCol then items
               else items.map (fun it => { it with corp_code := c }))

/-- The per-company loop (lines 139-173): one accumulated chunk per
successful company, in company order. -/
def majorChunks (oracle : String → MajorResp) (corp_codes : List String) :
    List (List PiicItem) :=
  corp_codes.filterMap (majorStep oracle)

/-- The meta columns selected from the filtered target list (lines 180-181). -/
structure MetaRow where
  corp_code : String
  corp_name : String
  rcept_no : String
  report_nm : String
  url : String
  deriving DecidableEq, Repr

/-- Projection of a target-list row onto the meta columns. -/
def metaOf (r : MajorListRow) : MetaRow :=
  { corp_code := r.lrow.corp_code, corp_name := r.lrow.corp_name,
    rcept_no := r.lrow.rcept_no, report_nm := r.lrow.report_nm, url := r.url }

/-- A detail row after the left merge with the list metadata. -/
structure PiicOut where
  item : PiicItem
  meta : Option MetaRow
  deriving DecidableEq, Repr

/-- Models the left merge at lines 183-187 (keys `corp_code, rcept_no`, which
are always present in both frames of this model): every detail row is kept;
it gains the meta columns of each meta row with the same key (duplicated if
several match) or nulls when none matches. -/
def leftMergeMeta (out : List PiicItem) (meta : List MetaRow) : List PiicOut :=
  out.flatMap (fun it =>
    let ms := meta.filter (fun m => decide (m.corp_code = it.corp_code ∧ m.rcept_no = it.rcept_no))
    match ms with
    | [] => [{ item := it, meta := none }]
    | _ => ms.map (fun m => { item := it, meta := some m }))

/-- Eight consecutive decimal digits, modelling `str.fullmatch(r"\d{8}")`. -/
def isYmd8 (s : String) : Bool := s.length == 8 && s.data.all Char.isDigit

/-- Models lines 189-196: keep only the rows whose receipt number's first 8
characters form an 8-digit date lying inside the exact requested window
(string comparison on `YYYYMMDD`, which is lexicographic in both Python and
Lean). -/
def windowFilter (bgn_de end_de : String) (rows : List PiicOut) : List PiicOut :=
  rows.filter (fun r =>
    isYmd8 (r.item.rcept_no.take 8) &&
    strLe bgn_de (r.item.rcept_no.take 8) &&
    strLe (r.item.rcept_no.take 8) end_de)

/-- Pure core of `fetch_paid_increase_decision_df` (lines 122-200), given an
oracle for the per-company endpoint responses: filter the list to the
paid-increase sub-category, take the distinct company codes, query each
company (skipping per-company failures), concatenate the chunks, left-merge
the list metadata, re-apply the exact requested window, and de-duplicate on
(corp_code, rcept_no). -/
def fetch_paid_increase_decision_df (oracle : String → MajorResp)
    (major_list : List MajorListRow) (bgn_de end_de : String) : List PiicOut :=
  let target := major_list.filter
    (fun r => decide (normalize_report_nm r.lrow.report_nm = "주요사항보고서(유상증자결정)"))
  if target = [] then []
  else
    let corp_codes := dedupByKey id (target.map (fun r => r.lrow.corp_code))
    let chunks := majorChunks oracle corp_codes
    if chunks = [] then []
    else
      let meta := dedupByKey id (target.map metaOf)
      let windowed := windowFilter bgn_de end_de (leftMergeMeta chunks.flatten meta)
      dedupByKey (fun r => (r.item.corp_code, r.item.rcept_no)) windowed

/-! ### DetailEnricher, rights-issue pipeline (the per-company loop of
`run_rights_issue_report_bytes`, ri_pipeline.py lines 458-534; the loop of
`run_rights_issue_report`, lines 283-361, is the same logic plus printing)

The `MAP_DICT` column renames translate field names only; the model uses the
English source field names throughout.  The widened request window (line 467,
requested start minus 6 months) only shapes the oracle's responses. -/

/-- An item of the `일반사항` (general info) group of an `estkRs` response. -/
structure RiBaseItem where
  corp_code : String
  corp_name : String
  rcept_no : String
  pymd : String
  deriving DecidableEq, Repr

/-- An item of the `증권의종류` (kind of security) group. -/
structure RiKindItem where
  corp_code : String
  corp_name : String
  rcept_no : String
  stksen : String
  stkcnt : String
  deriving DecidableEq, Repr

/-- An item of one of the four auxiliary groups. -/
structure RiAuxItem where
  corp_code : String
  se : String
  amt : String
  deriving DecidableEq, Repr

/-- The company-overview columns selected at line 493 of ri_pipeline.py. -/
structure RiOverview where
  corp_code : String
  ceo_nm : String
  adres : String
  phn_no : String
  fax_no : String
  deriving DecidableEq, Repr

/-- Response of one `estkRs` call.  `httpError` models a raised `requests`
exception — the call at lines 471-473 is NOT inside a `try/except`, so this
propagates.  The grouped frames are modelled post-lookup: `base?` and
`kind?` are the results of `dfs.get("일반사항")` and `dfs.get("증권의종류")`
(`none` = title absent), and the four auxiliary frames are the results of
`dfs.get(title, DataFrame())` for the other titles (lines 481-511). -/
inductive RiResp where
  | httpError
  | ok (status : String) (base? : Option (List RiBaseItem))
      (kind? : Option (List RiKindItem)) (df2 df3 df4 df5 : List RiAuxItem)

/-- A general-info row after the merges at lines 497-506: the security-kind
columns are optional (absent when the kind group is missing or empty), the
overview columns are attached by an inner merge on the company code, and the
URL is derived from the receipt number. -/
structure RiBaseRow where
  corp_code : String
  corp_name : String
  rcept_no : String
  pymd : String
  stksen : Option String
  stkcnt : Option String
  ceo_nm : String
  adres : String
  phn_no : String
  fax_no : String
  url : String
  deriving DecidableEq, Repr

/-- Models lines 497-506: `pd.merge(df_base, df_kind)` is an inner join on
the shared columns (corp_code, corp_name, rcept_no), skipped when the kind
group is missing or empty; then an inner merge with the single-row overview
frame on `corp_code = 고유번호`; then the URL column. -/
def riMergeKind (items : List RiBaseItem) (kind? : Option (List RiKindItem))
    (ov : RiOverview) : List RiBaseRow :=
  let merged : List (RiBaseItem × Option RiKindItem) :=
    match kind? with
    | none => items.map (fun b => (b, none))
    | some [] => items.map (fun b => (b, none))
    | some ks => items.flatMap (fun b =>
        (ks.filter (fun k => decide (k.corp_code = b.corp_code ∧
          k.corp_name = b.corp_name ∧ k.rcept_no = b.rcept_no))).map (fun k => (b, some k)))
  (merged.filter (fun bk => decide (ov.corp_code = bk.1.corp_code))).map (fun bk =>
    { corp_code := bk.1.corp_code, corp_name := bk.1.corp_name,
      rcept_no := bk.1.rcept_no, pymd := bk.1.pymd,
      stksen := bk.2.map (fun k => k.stksen), stkcnt := bk.2.map (fun k => k.stkcnt),
      ceo_nm := ov.ceo_nm, adres := ov.adres, phn_no := ov.phn_no, fax_no := ov.fax_no,
      url := urlOf bk.1.rcept_no })

/-- The per-company data accumulated for one successful company. -/
structure RiChunk where
  corp : String
  base : List RiBaseRow
  df2 : List RiAuxItem
  df3 : List RiAuxItem
  df4 : List RiAuxItem
  df5 : List RiAuxItem
  deriving DecidableEq, Repr

/-- One iteration of the per-company loop (lines 461-523).  A raised HTTP
exception propagates and aborts the whole run (`Except.error`); a
non-success status, a missing or empty general-info group, and a failed
overview fetch (its `try/except` at lines 492-495) skip the company
(`Except.ok none`). -/
def riStep (oracle : String → RiResp) (overviewOracle : String → Option RiOverview)
    (c : String) : Except Unit (Option RiChunk) :=
  match oracle c with
  | .httpError => .error ()
  | .ok status base? kind? df2 df3 df4 df5 =>
    if status ≠ "000" then .ok none
    else match base? with
      | none => .ok none
      | some [] => .ok none
      | some items =>
        match overviewOracle c with
        | none => .ok none
        | some ov =>
          .ok (some { corp := c, base := riMergeKind items kind? ov,
                      df2 := df2, df3 := df3, df4 := df4, df5 := df5 })

/-- The per-company loop over the distinct company codes: accumulates the
chunks in order, aborting on the first HTTP error. -/
def riLoop (oracle : String → RiResp) (overviewOracle : String → Option RiOverview) :
    List String → Except Unit (List RiChunk)
  | [] => .ok []
  | c :: cs =>
    match riStep oracle overviewOracle c with
    | .error e => .error e
    | .ok none => riLoop oracle overviewOracle cs
    | .ok (some ch) => (riLoop oracle overviewOracle cs).map (fun rest => ch :: rest)

/-- Models `_safe_concat` (ri_pipeline.py lines 525-528; identical helper at
lines 352-355): an empty frame list yields an empty frame, otherwise
concatenate and `drop_duplicates()` over FULL rows, keeping first
occurrences. -/
def safeConcat {α : Type} [DecidableEq α] (frames : List (List α)) : List α :=
  match frames with
  | [] => []
  | _ => dedupByKey id frames.flatten

/-! ### FinancialDerivation (`to_numeric_series`, major_report_pipeline.py
lines 63-69, and `add_finance_columns`, lines 203-222) -/

/-- Extended pandas float value: finite, signed infinity, or NaN. -/
inductive FpVal where
  | fin (q : ℚ)
  | pinf
  | ninf
  | nan
  deriving DecidableEq

/-- Division of the two finite aggregate series values as pandas performs it
on floats: a zero divisor yields a signed infinity (NaN for 0/0), otherwise
the quotient (a finite quotient that overflows to float infinity would also
be caught by the `replace` guard below, so overflow is not modelled). -/
def fdiv (a b : ℚ) : FpVal :=
  if b = 0 then (if 0 < a then .pinf else if a < 0 then .ninf else .nan)
  else .fin (a / b)

/-- Models `.replace([np.inf, -np.inf], np.nan)` (line 217). -/
def replaceInfNan : FpVal → FpVal
  | .pinf => .nan
  | .ninf => .nan
  | v => v

/-- Models `.fillna(0)` (line 218). -/
def fillna0 : FpVal → FpVal
  | .nan => .fin 0
  | v => v

/-- Numpy rounding (half to even) on a rational. -/
def roundHalfEven (q : ℚ) : ℤ :=
  if q - ⌊q⌋ < 1 / 2 then ⌊q⌋
  else if (1 : ℚ) / 2 < q - ⌊q⌋ then ⌊q⌋ + 1
  else if ⌊q⌋ % 2 = 0 then ⌊q⌋ else ⌊q⌋ + 1

/-- Models `.round().astype(int)` (lines 219-220) on one value:
`astype(int)` on a non-finite float raises, modelled as `none`. -/
def roundAstypeInt : FpVal → Option ℤ
  | .fin q => some (roundHalfEven q)
  | _ => none

/-- Digit run to a natural number. -/
def digitsToNat (ds : List Char) : Nat :=
  ds.foldl (fun n c => n * 10 + (c.toNat - '0'.toNat)) 0

/-- Optional leading sign. -/
def parseSign : List Char → ℚ × List Char
  | '-' :: t => (-1, t)
  | '+' :: t => (1, t)
  | t => (1, t)

/-- Models `pd.to_numeric(errors="coerce")` on the decimal strings this data
carries: optional surrounding whitespace, optional sign, digits with an
optional fractional part; anything else coerces to `none` (NaN). -/
def parseNumeric (s : String) : Option ℚ :=
  let cs := ((s.data.dropWhile wsChar).reverse.dropWhile wsChar).reverse
  let sc := parseSign cs
  let intPart := sc.2.takeWhile Char.isDigit
  let rest := sc.2.dropWhile Char.isDigit
  match rest with
  | [] => if intPart.isEmpty then none else some (sc.1 * digitsToNat intPart)
  | '.' :: frac =>
    if frac.all Char.isDigit && (!intPart.isEmpty || !frac.isEmpty) then
      some (sc.1 * ((digitsToNat intPart : ℚ)
        + (digitsToNat frac : ℚ) / ((10 : ℚ) ^ frac.length)))
    else none
  | _ => none

/-- Models `to_numeric_series` (lines 63-69) on one cell: an exact `"-"`
cell is replaced by `"0"` (`replace("-", "0")` is an exact-value replace),
every comma is removed (`replace(",", "", regex=True)`), the result is
coerced (`errors="coerce"`), and NaN becomes 0 (`fillna(0)`). -/
def to_numeric_cell (s : String) : ℚ :=
  let s1 := if s = "-" then "0" else s
  let s2 : String := ⟨s1.data.filter (fun c => c ≠ ',')⟩
  match parseNumeric s2 with
  | some q => q
  | none => 0

/-- Row aggregate of the `fdpp_*` (use-of-funds) cells, line 210; a row with
no such columns contributes the literal 0 of the `else` branch. -/
def fdpp_sum (amounts : List String) : ℚ := (amounts.map to_numeric_cell).sum

/-- Row aggregate of the `nstk_ostk_cnt`/`nstk_estk_cnt` cells, line 213. -/
def nstk_sum (counts : List String) : ℚ := (counts.map to_numeric_cell).sum

/-- Models lines 215-221 for one row: the derived per-share price
`(fdpp_sum / nstk_sum).replace([inf, -inf], nan).fillna(0).round().astype(int)`. -/
def nstk_ps (amounts counts : List String) : Option ℤ :=
  roundAstypeInt (fillna0 (replaceInfNan (fdiv (fdpp_sum amounts) (nstk_sum counts))))

/-! ### OutputComposer: cross-sheet company ordering
(`_sort_by_company_order`, ri_pipeline.py lines 581-586, and the identical
copy at lines 408-413) -/

/-- A row of a derived table as relevant to the company sort: the company
name (`none` models NaN) and the rest of the row. -/
structure DerivedRow where
  company : Option String
  payload : String
  deriving DecidableEq, Repr

/-- A derived table: whether it has a `회사명` column, and its rows. -/
structure DerivedTable where
  hasCompanyCol : Bool
  rows : List DerivedRow
  deriving DecidableEq, Repr

/-- The categorical rank of a row under `pd.Categorical(..., categories =
company_order, ordered=True)`: the position of the company name in the base
order, `none` (NaN) when the name is missing or not a category. -/
def companyRank (order : List String) (r : DerivedRow) : Option Nat :=
  match r.company with
  | none => none
  | some c => order.findIdx? (fun x => x = c)

/-- Boolean comparison of two rows by categorical rank: known ranks
ascending, NaN ranks last (`sort_values` default `na_position="last"`),
equal ranks tied. -/
def rankLeB (order : List String) (a b : DerivedRow) : Bool :=
  match companyRank order a, companyRank order b with
  | some i, some j => i ≤ j
  | some _, none => true
  | none, some _ => false
  | none, none => true

/-- The sort relation used by the company-order sort. -/
def rankLe (order : List String) (a b : DerivedRow) : Prop :=
  rankLeB order a b = true

instance (order : List String) : DecidableRel (rankLe order) := fun a b =>
  inferInstanceAs (Decidable (_ = true))

instance (order : List String) : IsTotal DerivedRow (rankLe order) :=
  ⟨by
    intro a b
    unfold rankLe rankLeB
    cases companyRank order a <;> cases companyRank order b <;> simp <;> omega⟩

instance (order : List String) : IsTrans DerivedRow (rankLe order) :=
  ⟨by
    intro a b c
    unfold rankLe rankLeB
    cases companyRank order a <;> cases companyRank order b <;>
      cases companyRank order c <;> simp <;> omega⟩

/-- Model of `_sort_by_company_order`: the table is returned unchanged when
it is empty, lacks the company column, or the base order is empty; otherwise
its rows are stably sorted by categorical rank with NaN ranks last
(`kind="mergesort"`; the stable sort is modelled by `List.insertionSort`). -/
def sortByCompanyOrder (order : List String) (t : DerivedTable) : DerivedTable :=
  if t.rows = [] ∨ t.hasCompanyCol = false ∨ order = [] then t
  else { t with rows := t.rows.insertionSort (rankLe order) }

/-! ### ReviewListBuilder (`_build_check_list`, ri_pipeline.py lines 150-181) -/

/-- Marker test of line 155: `str.contains(r"\\[기재정정\\]|\\[발행조건확정\\]")`
is an alternation of two literals, i.e. substring containment of either. -/
def hasCheckMarker (title : String) : Bool :=
  containsStr "[기재정정]" title || containsStr "[발행조건확정]" title

/-- Finalized-condition test of `pick_latest` (line 169):
`str.contains(r"\\[발행조건확정\\]")`. -/
def isFinalized (title : String) : Bool := containsStr "[발행조건확정]" title

/-- The review-list columns selected at lines 154-157 (`corp_name,
report_nm, rcept_dt, rcept_no, URL`, renamed by `MAP_DICT`). -/
structure CheckRow where
  corp_name : String
  report_nm : String
  rcept_dt : String
  rcept_no : String
  url : String
  deriving DecidableEq, Repr

/-- A review-list entry after `rcept_dt` and the receipt number are dropped
(line 180). -/
structure CheckEntry where
  corp_name : String
  report_nm : String
  url : String
  deriving DecidableEq, Repr

/-- Column selection of lines 154-157. -/
def checkRowOf (r : MajorListRow) : CheckRow :=
  ⟨r.lrow.corp_name, r.lrow.report_nm, r.lrow.rcept_dt, r.lrow.rcept_no, r.url⟩

/-- Column drop of line 180. -/
def checkEntryOf (r : CheckRow) : CheckEntry := ⟨r.corp_name, r.report_nm, r.url⟩

/-- Composes a sort comparator: primary string key ascending, ties resolved
by `tail`. -/
def ascThen {α : Type} (f : α → String) (tail : α → α → Bool) (a b : α) : Bool :=
  if f a = f b then tail a b else strLe (f a) (f b)

/-- Composes a sort comparator: primary string key descending, ties resolved
by `tail`. -/
def descThen {α : Type} (f : α → String) (tail : α → α → Bool) (a b : α) : Bool :=
  if f a = f b then tail a b else strLe (f b) (f a)

/-- The within-company part of the sort of lines 162-166: receipt date
descending, then receipt number descending. -/
def keyLeB (a b : CheckRow) : Bool :=
  descThen (fun r => r.rcept_dt)
    (fun x y => strLe y.rcept_no x.rcept_no) a b

/-- The full comparator of `sort_values(by=[회사명, rcept_dt, 접수번호],
ascending=[True, False, False], kind="mergesort")`. -/
def checkLeB (a b : CheckRow) : Bool := ascThen (fun r => r.corp_name) keyLeB a b

/-- Propositional form of `keyLeB`. -/
def keyLe (a b : CheckRow) : Prop := keyLeB a b = true

/-- Propositional form of `checkLeB`. -/
def checkLe (a b : CheckRow) : Prop := checkLeB a b = true

instance : DecidableRel keyLe := fun a b => inferInstanceAs (Decidable (_ = true))

instance : DecidableRel checkLe := fun a b => inferInstanceAs (Decidable (_ = true))

/-- Models `pick_latest` (lines 168-172): the first finalized-condition row
of the (sorted) group if any exists, otherwise the first row. -/
def pickLatest (grp : List CheckRow) : List CheckRow :=
  let fins := grp.filter (fun r => isFinalized r.report_nm)
  if fins = [] then grp.take 1 else fins.take 1

/-- Model of `_build_check_list` (lines 150-181): filter to marked rows,
select/rename the columns, stably sort by (company asc, date desc, number
desc), group by company in order of first appearance (`groupby` with
`sort=False` on the already-sorted frame), pick one representative per
group, and drop the helper columns. -/
def build_check_list (report_df : List MajorListRow) : List CheckEntry :=
  let check0 : List CheckRow :=
    (report_df.filter (fun r => hasCheckMarker r.lrow.report_nm)).map checkRowOf
  if check0 = [] then []
  else
    let sorted := check0.insertionSort checkLe
    let keys := dedupByKey id (sorted.map (fun r => r.corp_name))
    (keys.flatMap (fun k =>
      pickLatest (sorted.filter (fun r => decide (r.corp_name = k))))).map checkEntryOf

/-- Specification-side selector: the first element of the list that is
maximal for `r` (later elements replace the current best only when strictly
better, so ties keep the earliest — the stable tie-break). -/
def bestFirst {α : Type} (r : α → α → Prop) [DecidableRel r] : List α → Option α
  | [] => none
  | a :: l =>
    some (match bestFirst r l with
          | none => a
          | some m => if r a m then a else m)

/-- Specification-side representative of one company group (rows in input
order): the most recent finalized row if any, else the most recent row. -/
def reviewRep (g : List CheckRow) : Option CheckRow :=
  match bestFirst keyLe (g.filter (fun r => isFinalized r.report_nm)) with
  | some m => some m
  | none => bestFirst keyLe g

/-! ### DocumentTextExtractor (`parse_contact_fields`, major_report_pipeline.py
lines 252-300, and `parse_schedule_fields`, lines 303-330)

The regexes are translated into character scanners.  `re.IGNORECASE` is
modelled by comparing lower-cased characters (the patterns' cased letters
are ASCII; Hangul has no case). -/

/-- Case-insensitive character comparison for `re.IGNORECASE`. -/
def ciEq (a b : Char) : Bool := a.toLower = b.toLower

/-- Matches a literal (case-insensitively) at the head, returning the
remainder. -/
def dropLit : List Char → List Char → Option (List Char)
  | [], s => some s
  | _ :: _, [] => none
  | p :: ps, c :: cs => if ciEq p c then dropLit ps cs else none

/-- Splits at the first occurrence of a literal (case-insensitively):
returns the part before the occurrence and the part after it. -/
def splitAtLit (pat : List Char) : List Char → Option (List Char × List Char)
  | [] =>
    match dropLit pat [] with
    | some rest => some ([], rest)
    | none => none
  | c :: cs =>
    match dropLit pat (c :: cs) with
    | some rest => some ([], rest)
    | none =>
      match splitAtLit pat cs with
      | some pre_post => some (c :: pre_post.1, pre_post.2)
      | none => none

/-- Matches `<TD[^>]*>` (IGNORECASE) at the head, returning the remainder
after the closing `>`. -/
def matchOpenTD (s : List Char) : Option (List Char) :=
  match dropLit "<TD".data s with
  | none => none
  | some rest =>
    match rest.dropWhile (fun c => c ≠ '>') with
    | '>' :: tail => some tail
    | _ => none

/-- Scanner for `re.findall(r"<TD[^>]*>(.*?)</TD>", xml, IGNORECASE|DOTALL)`
(line 253): at each position, a `<TD...>` opening followed by a non-greedy
capture up to the first `</TD>`; on success scanning resumes after the
closing tag, otherwise it advances one character (as `findall` does when no
match starts at a position).  Fuel `s.length` suffices: every step consumes
at least one character. -/
def findTDCells : Nat → List Char → List (List Char)
  | 0, _ => []
  | _, [] => []
  | fuel + 1, c :: cs =>
    match matchOpenTD (c :: cs) with
    | some rest =>
      match splitAtLit "</TD>".data rest with
      | some cap_post => cap_post.1 :: findTDCells fuel cap_post.2
      | none => findTDCells fuel cs
    | none => findTDCells fuel cs

/-- Scanner for `re.sub(r"<[^>]+>", "", s)` (line 256): drop every maximal
`<`...`>` span with a nonempty body; a `<` with no following `>` (or an
empty body `<>`) is not a match and is kept. -/
def stripTags : Nat → List Char → List Char
  | 0, s => s
  | _, [] => []
  | fuel + 1, c :: cs =>
    if c = '<' then
      match cs.takeWhile (fun x => x ≠ '>') with
      | [] => c :: stripTags fuel cs
      | _ =>
        match cs.dropWhile (fun x => x ≠ '>') with
        | '>' :: tail => stripTags fuel tail
        | _ => c :: stripTags fuel cs
    else c :: stripTags fuel cs

/-- The entities recovered by the model of `html.unescape` (line 257): the
five XML entities and the non-breaking space.  The claims under proof do not
depend on the rest of the HTML5 entity table, which is not reproduced. -/
def unescapeLite : Nat → List Char → List Char
  | 0, s => s
  | _, [] => []
  | fuel + 1, s =>
    match dropLit "&amp;".data s with
    | some r => '&' :: unescapeLite fuel r
    | none =>
      match dropLit "&lt;".data s with
      | some r => '<' :: unescapeLite fuel r
      | none =>
        match dropLit "&gt;".data s with
        | some r => '>' :: unescapeLite fuel r
        | none =>
          match dropLit "&quot;".data s with
          | some r => '"' :: unescapeLite fuel r
          | none =>
            match dropLit "&#39;".data s with
            | some r => '\x27' :: unescapeLite fuel r
            | none =>
              match dropLit "&nbsp;".data s with
              | some r => '\xA0' :: unescapeLite fuel r
              | none =>
                match s with
                | [] => []
                | c :: cs => c :: unescapeLite fuel cs

/-- Scanner for `re.sub(r"\s+", " ", s)`: collapse each maximal whitespace
run to a single space. -/
def collapseWsAux (prevWs : Bool) : List Char → List Char
  | [] => []
  | c :: cs =>
    if wsChar c then
      if prevWs then collapseWsAux true cs
      else ' ' :: collapseWsAux true cs
    else c :: collapseWsAux false cs

/-- The `clean` helper of `parse_contact_fields` (lines 255-258): strip
tags, unescape entities, replace NBSP by a space, collapse whitespace,
strip the ends. -/
def cleanCell (s : List Char) : List Char :=
  let t1 := stripTags s.length s
  let t2 := (unescapeLite t1.length t1).map (fun c => if c = '\xA0' then ' ' else c)
  stripEnds (collapseWsAux false t2)

/-- The cleaned cell list of a document. -/
def cellsOf (xml : String) : List String :=
  (findTDCells xml.data.length xml.data).map (fun raw => ⟨cleanCell raw⟩)

/-- The normalized form for label matching (line 261):
`re.sub(r"[\s:()]", "", c)`. -/
def normCellStr (c : String) : String :=
  ⟨c.data.filter (fun x => !(wsChar x || x = ':' || x = '(' || x = ')'))⟩

/-- The `next_non_empty` helper (lines 263-267): the first non-empty cell
after index `i`. -/
def nextNonEmpty (cells : List String) (i : Nat) : Option String :=
  (cells.drop (i + 1)).find? (fun c => c ≠ "")

/-- The result record of `parse_contact_fields`: 대표이사 (representative),
본점소재지 (registered address), and the three 작성책임자 (signatory)
sub-fields 직책 (title), 성명 (name), 전화번호 (phone). -/
structure ContactOut where
  rep : Option String
  addr : Option String
  wtitle : Option String
  wname : Option String
  wphone : Option String
  deriving DecidableEq, Repr

/-- State of the first scan loop (lines 280-287). -/
structure MainScanState where
  rep : Option String
  addr : Option String
  writer_start : Option Nat
  deriving DecidableEq, Repr

/-- One iteration of the first scan loop (lines 281-287): the `elif` chain
over the representative label, the address label, and the signatory-section
label, each firing only while its field is still unset. -/
def mainScanStep (cells : List String) (st : MainScanState) (ic : Nat × String) :
    MainScanState :=
  if containsStr "대표이사" (normCellStr ic.2) && st.rep.isNone then
    { st with rep := nextNonEmpty cells ic.1 }
  else if containsStr "본점소재지" (normCellStr ic.2) && st.addr.isNone then
    { st with addr := nextNonEmpty cells ic.1 }
  else if containsStr "작성책임자" (normCellStr ic.2) && st.writer_start.isNone then
    { st with writer_start := some ic.1 }
  else st

/-- The first scan loop over the indexed cells. -/
def mainScan (cells : List String) : MainScanState :=
  cells.enum.foldl (mainScanStep cells) ⟨none, none, none⟩

/-- Scanner for the echo strip `re.sub(r"^\(?\s*X\s*Y\s*\)?\s*", "", t)`
(lines 294-298): optional `(`, whitespace, the two label characters with
whitespace between, optional `)`, trailing whitespace; `none` when the two
label characters are not found (the regex does not match, so `re.sub`
leaves the text unchanged). -/
def dropEcho (c1 c2 : Char) (s : List Char) : Option (List Char) :=
  let s1 := match s with
    | '(' :: t => t
    | t => t
  match s1.dropWhile wsChar with
  | c :: t =>
    if c = c1 then
      match t.dropWhile wsChar with
      | d :: u =>
        if d = c2 then
          let u3 := match u.dropWhile wsChar with
            | ')' :: v => v
            | v => v
          some (u3.dropWhile wsChar)
        else none
      | [] => none
    else none
  | [] => none

/-- The `strip_prefix(t, pattern).strip()`-equivalent value of a matched
signatory cell: the cell text with a leading parenthetical label echo
removed, then stripped. -/
def stripEcho (c1 c2 : Char) (s : String) : String :=
  match dropEcho c1 c2 s.data with
  | some rest => ⟨stripEnds rest⟩
  | none => ⟨stripEnds s.data⟩

/-- State of the signatory-window loop (lines 289-298). -/
structure WriterState where
  wtitle : Option String
  wname : Option String
  wphone : Option String
  deriving DecidableEq, Repr

/-- One iteration of the signatory-window loop (lines 290-298): the `elif`
chain over the three sub-labels, each firing only while unset, taking the
matched cell's own text stripped of the label echo. -/
def writerStep (st : WriterState) (t : String) : WriterState :=
  if containsStr "직책" (normCellStr t) && st.wtitle.isNone then
    { st with wtitle := some (stripEcho '직' '책' t) }
  else if containsStr "성명" (normCellStr t) && st.wname.isNone then
    { st with wname := some (stripEcho '성' '명' t) }
  else if containsStr "전화" (normCellStr t) && st.wphone.isNone then
    { st with wphone := some (stripEcho '전' '화' t) }
  else st

/-- The signatory-window loop over the window cells. -/
def writerScan (window : List String) : WriterState :=
  window.foldl writerStep ⟨none, none, none⟩

/-- Core of `parse_contact_fields` on the cleaned cell list.  The window of
the signatory loop is `range(writer_start + 1, min(writer_start + 12,
len(cells)))`, i.e. the slice of at most 11 cells after the label. -/
def contactFromCells (cells : List String) : ContactOut :=
  let ms := mainScan cells
  let ws := match ms.writer_start with
    | none => (⟨none, none, none⟩ : WriterState)
    | some i => writerScan ((cells.drop (i + 1)).take 11)
  ⟨ms.rep, ms.addr, ws.wtitle, ws.wname, ws.wphone⟩

/-- Model of `parse_contact_fields` (lines 252-300). -/
def parse_contact_fields (xml : String) : ContactOut :=
  contactFromCells (cellsOf xml)

/-- Matches `AUNIT\s*=\s*"KEY"` (IGNORECASE) at the head, returning the
remainder. -/
def matchAunitHead (key : List Char) (s : List Char) : Option (List Char) :=
  match dropLit "AUNIT".data s with
  | none => none
  | some r1 =>
    match r1.dropWhile wsChar with
    | '=' :: r3 =>
      match r3.dropWhile wsChar with
      | '"' :: r5 =>
        match dropLit key r5 with
        | none => none
        | some r6 =>
          match r6 with
          | '"' :: r7 => some r7
          | _ => none
      | _ => none
    | _ => none

/-- Matches `AUNITVALUE\s*=\s*"([^"]+)"` (IGNORECASE) at the head,
returning the capture. -/
def matchAunitValueTail (s : List Char) : Option (List Char) :=
  match dropLit "AUNITVALUE".data s with
  | none => none
  | some r1 =>
    match r1.dropWhile wsChar with
    | '=' :: r3 =>
      match r3.dropWhile wsChar with
      | '"' :: r5 =>
        match r5.dropWhile (fun c => c ≠ '"') with
        | '"' :: _ =>
          match r5.takeWhile (fun c => c ≠ '"') with
          | [] => none
          | cap => some cap
        | _ => none
      | _ => none
    | _ => none

/-- The greedy `[^>]*` between the key and `AUNITVALUE`: the match uses the
longest span, i.e. the last position before the next `>` where the value
tail matches. -/
def greedyAunitValue (acc : Option (List Char)) : List Char → Option (List Char)
  | [] => acc
  | c :: cs =>
    if c = '>' then acc
    else
      match matchAunitValueTail (c :: cs) with
      | some cap => greedyAunitValue (some cap) cs
      | none => greedyAunitValue acc cs

/-- Scanner for `re.search(r'AUNIT\s*=\s*"KEY"[^>]*AUNITVALUE\s*=\s*"([^"]+)"',
xml, IGNORECASE)` (lines 308-309): leftmost position where the whole
pattern matches. -/
def searchAunit (key : List Char) : List Char → Option (List Char)
  | [] => none
  | c :: cs =>
    match matchAunitHead key (c :: cs) with
    | some rest =>
      match greedyAunitValue none rest with
      | some cap => some cap
      | none => searchAunit key cs
    | none => searchAunit key cs

/-- Matches a label of whitespace-separated segments followed by `</TD>`
(the label part of the fallback regexes at lines 319 and 325). -/
def dropSegs : List (List Char) → List Char → Option (List Char)
  | [], s => some s
  | [seg], s => dropLit seg s
  | seg :: rest, s =>
    match dropLit seg s with
    | none => none
    | some r => dropSegs rest (r.dropWhile wsChar)

/-- Matches `</T[UE]>` (IGNORECASE) at the head. -/
def isCloserAt (s : List Char) : Option (List Char) :=
  match s with
  | '<' :: '/' :: t :: ue :: '>' :: rest =>
    if ciEq 'T' t && (ciEq 'U' ue || ciEq 'E' ue) then some rest else none
  | _ => none

/-- The non-greedy capture `(.*?)</T[UE]>`: everything up to the first
closing `</TU>` or `</TE>`; fails when no closer follows. -/
def captureUntilCloser : List Char → Option (List Char)
  | [] => none
  | c :: cs =>
    match isCloserAt (c :: cs) with
    | some _ => some []
    | none =>
      match captureUntilCloser cs with
      | some cap => some (c :: cap)
      | none => none

/-- Matches one fallback pattern
`LABEL</TD>\s*<T[UE][^>]*>(.*?)</T[UE]>` at the head, returning the raw
capture. -/
def matchFallbackAt (segs : List (List Char)) (s : List Char) : Option (List Char) :=
  match dropSegs segs s with
  | none => none
  | some r1 =>
    match dropLit "</TD>".data r1 with
    | none => none
    | some r2 =>
      match r2.dropWhile wsChar with
      | '<' :: t :: ue :: r6 =>
        if ciEq 'T' t && (ciEq 'U' ue || ciEq 'E' ue) then
          match r6.dropWhile (fun c => c ≠ '>') with
          | '>' :: r7 => captureUntilCloser r7
          | _ => none
        else none
      | _ => none

/-- Leftmost search for a fallback pattern. -/
def searchFallback (segs : List (List Char)) : List Char → Option (List Char)
  | [] => none
  | c :: cs =>
    match matchFallbackAt segs (c :: cs) with
    | some cap => some cap
    | none => searchFallback segs cs

/-- A fallback capture run through `re.sub(r"<[^>]+>", "", ...).strip()`
(lines 321 and 327). -/
def fallbackValue (segs : List (List Char)) (xml : List Char) : Option String :=
  match searchFallback segs xml with
  | none => none
  | some cap => some ⟨stripEnds (stripTags cap.length cap)⟩

/-- The dash/empty normalization `None if v in {"", "-"} else v` applied to
every recovered schedule value (lines 312-316, 322, 328). -/
def normDash (v : String) : Option String :=
  if v = "" ∨ v = "-" then none else some v

/-- The result record of `parse_schedule_fields`: 납입일 (payment date) and
신주상장예정일 (scheduled listing date). -/
structure ScheduleOut where
  pym : Option String
  lst : Option String
  deriving DecidableEq, Repr

/-- Model of `parse_schedule_fields` (lines 303-330): the attribute-keyed
scans, then the label-adjacent fallbacks for the fields still null, every
value dash/empty-normalized. -/
def parse_schedule_fields (xml : String) : ScheduleOut :=
  if xml = "" then ⟨none, none⟩
  else
    let pym0 : Option String :=
      match searchAunit "PYM_DT".data xml.data with
      | some cap => normDash ⟨stripEnds cap⟩
      | none => none
    let lst0 : Option String :=
      match searchAunit "LST_PLN_DT".data xml.data with
      | some cap => normDash ⟨stripEnds cap⟩
      | none => none
    let pym : Option String :=
      match pym0 with
      | some v => some v
      | none =>
        match fallbackValue ["납입일".data] xml.data with
        | some txt => normDash txt
        | none => none
    let lst : Option String :=
      match lst0 with
      | some v => some v
      | none =>
        match fallbackValue ["신주의".data, "상장".data, "예정일".data] xml.data with
        | some txt => normDash txt
        | none => none
    ⟨pym, lst⟩

/-! ### Concrete fixtures used in witnesses and counterexamples -/

/-- Fixture overview oracle: every company has an overview row. -/
def riOvAll : String → Option RiOverview := fun c =>
  some ⟨c, "대표", "서울", "02-1111", "02-2222"⟩

/-- Fixture oracle for the rights-issue loop: company "A" suffers an HTTP
error on its `estkRs` call, company "B" answers successfully. -/
def riOracleHttpFail : String → RiResp := fun c =>
  if c = "A" then .httpError
  else .ok "000" (some [⟨"B", "비컴퍼니", "20240105000001", "20240110"⟩]) none [] [] [] []

/-- Fixture oracle: company "S" answers with the no-data status "013",
company "B" answers successfully. -/
def riOracleStatusFail : String → RiResp := fun c =>
  if c = "S" then .ok "013" none none [] [] [] []
  else .ok "000" (some [⟨"B", "비컴퍼니", "20240105000001", "20240110"⟩]) none [] [] [] []

/-- Fixture oracle returning a detail row dated 20231001, before the
requested window 20240101-20240131 but inside the widened six-month query
window (which starts 20230701). -/
def riOracleOldRow : String → RiResp := fun _ =>
  .ok "000" (some [⟨"C", "씨컴퍼니", "20231001000001", "20240110"⟩]) none [] [] [] []

/-- Rights-issue base table built from `riOracleOldRow` (the stage output
`df_base = _safe_concat(base_list)`). -/
def riBaseOld : List RiBaseRow :=
  match riLoop riOracleOldRow riOvAll ["C"] with
  | .error _ => []
  | .ok chs => safeConcat (chs.map RiChunk.base)

/-- Fixture oracle whose security-kind group carries two rows for the same
filing (two kinds of security in one rights issue). -/
def riOracleTwoKinds : String → RiResp := fun _ =>
  .ok "000" (some [⟨"C", "씨컴퍼니", "20240105000001", "20240110"⟩])
    (some [⟨"C", "씨컴퍼니", "20240105000001", "보통주", "100"⟩,
           ⟨"C", "씨컴퍼니", "20240105000001", "우선주", "50"⟩]) [] [] [] []

/-- Rights-issue base table built from `riOracleTwoKinds`. -/
def riBaseTwoKinds : List RiBaseRow :=
  match riLoop riOracleTwoKinds riOvAll ["C"] with
  | .error _ => []
  | .ok chs => safeConcat (chs.map RiChunk.base)

/-- Fixture record whose raw title contains the rights-issue report name as
a proper substring without being equal to it (even after normalization). -/
def looseTitleRec : ListRec :=
  ⟨"00000001", "테스트사", "20240105000002", "20240105", "테스트증권신고서(지분증권)외"⟩

/-- Fixture oracle for the major per-company endpoint: company "A" raises,
company "B" answers with one detail item. -/
def majorOracleEx : String → MajorResp := fun c =>
  if c = "A" then .httpError
  else .ok "000" true [⟨"20240105000001", "B", "p"⟩]

/-- Fixture filtered list with one paid-increase filing of company "B". -/
def majorListEx : List MajorListRow :=
  [{ lrow := ⟨"B", "비컴퍼니", "20240105000001", "20240105",
      "주요사항보고서(유상증자결정)"⟩, url := urlOf "20240105000001" }]

/-- The output row the major enrichment produces from `majorOracleEx` and
`majorListEx`. -/
def majorRowEx : PiicOut :=
  { item := ⟨"20240105000001", "B", "p"⟩,
    meta := some ⟨"B", "비컴퍼니", "20240105000001",
      "주요사항보고서(유상증자결정)", urlOf "20240105000001"⟩ }

/-- Fixture derived table for the company-order sort. -/
def derivedTableEx : DerivedTable :=
  { hasCompanyCol := true,
    rows := [⟨none, "x"⟩, ⟨some "나사", "y"⟩, ⟨some "가사", "z"⟩, ⟨some "다사", "w"⟩] }

/-- Fixture document whose signatory title cell is only the parenthetical
label echo, so the recovered title is the empty string. -/
def xmlEchoEmpty : String := "<TD>작성책임자</TD><TD>(직책)</TD>"

/-- Fixture document whose title sub-label sits in the 12th cell after the
signatory label — inside a 12-cell window, outside the code's 11-cell one. -/
def xmlWindow12 : String :=
  "<TD>작성책임자</TD><TD>f0</TD><TD>f1</TD><TD>f2</TD><TD>f3</TD><TD>f4</TD>" ++
  "<TD>f5</TD><TD>f6</TD><TD>f7</TD><TD>f8</TD><TD>f9</TD><TD>f10</TD>" ++
  "<TD>(직책) 부장</TD>"

/-! Auxiliary lemmas about the normalizer, towards idempotence (claim C4). -/

theorem dropWhile_idem (p : Char → Bool) (l : List Char) :
    (l.dropWhile p).dropWhile p = l.dropWhile p := by
  induction l with
  | nil => rfl
  | cons c l ih =>
    by_cases h : p c
    · simp [List.dropWhile_cons, h, ih]
    · simp [List.dropWhile_cons, h]

theorem takeWhile_dropWhile_all_append {p : Char → Bool} (x : Char) (tail : List Char)
    (hx : p x = false) :
    ∀ (body : List Char), (∀ c ∈ body, p c = true) →
      (body ++ x :: tail).takeWhile p = body ∧ (body ++ x :: tail).dropWhile p = x :: tail
  | [], _ => by simp [List.takeWhile_cons, List.dropWhile_cons, hx]
  | c :: cs, hall => by
    have hc : p c = true := hall c (List.mem_cons_self c cs)
    obtain ⟨ih1, ih2⟩ := takeWhile_dropWhile_all_append x tail hx cs
      (fun d hd => hall d (List.mem_cons_of_mem c hd))
    constructor
    · simp only [List.cons_append, List.takeWhile_cons, hc, if_true, ih1]
    · simp only [List.cons_append, List.dropWhile_cons, hc, if_true, ih2]

/-- Shape of a successful `matchGroup`. -/
theorem matchGroup_some_shape {s r : List Char} (h : matchGroup s = some r) :
    ∃ body tail, s = '[' :: body ++ ']' :: tail ∧ body ≠ [] ∧
      (∀ c ∈ body, c ≠ ']') ∧ r = tail.dropWhile wsChar := by
  cases s with
  | nil => simp [matchGroup] at h
  | cons c rest =>
    simp only [matchGroup] at h
    split_ifs at h with hcond
    · obtain ⟨hc, hne, hhead⟩ := hcond
      subst hc
      rcases hr2 : rest.dropWhile (fun x => x ≠ ']') with _ | ⟨d, tail⟩
      · rw [hr2] at hhead; simp at hhead
      · rw [hr2] at hhead
        have hd : d = ']' := by simpa using hhead
        subst hd
        rw [hr2] at h
        refine ⟨rest.takeWhile (fun x => x ≠ ']'), tail, ?_, hne, ?_, ?_⟩
        · have h2 := List.takeWhile_append_dropWhile
            (p := fun x => decide (x ≠ ']')) (l := rest)
          rw [hr2] at h2
          exact congrArg (List.cons '[') h2.symm
        · intro x hx
          simpa using List.mem_takeWhile_imp hx
        · simpa using h.symm

/-- Converse construction: a well-formed leading group always matches. -/
theorem matchGroup_shape_some (body tail : List Char) (hne : body ≠ [])
    (hb : ∀ c ∈ body, c ≠ ']') :
    matchGroup ('[' :: body ++ ']' :: tail) = some (tail.dropWhile wsChar) := by
  have hx : (fun x => decide (x ≠ ']')) ']' = false := by simp
  have hall : ∀ c ∈ body, (fun x => decide (x ≠ ']')) c = true := by
    intro c hc; simpa using hb c hc
  obtain ⟨htake, hdrop⟩ := takeWhile_dropWhile_all_append ']' tail hx body hall
  simp only [List.cons_append, matchGroup]
  rw [htake, hdrop]
  simp [hne]

theorem matchGroup_length {s r : List Char} (h : matchGroup s = some r) :
    r.length < s.length := by
  obtain ⟨body, tail, hs, _, _, hr⟩ := matchGroup_some_shape h
  subst hs hr
  have := (List.dropWhile_sublist (l := tail) wsChar).length_le
  simp only [List.length_cons, List.length_append]
  omega

theorem matchGroup_noLead {s r : List Char} (h : matchGroup s = some r) :
    r.dropWhile wsChar = r := by
  obtain ⟨_, tail, _, _, _, hr⟩ := matchGroup_some_shape h
  subst hr
  exact dropWhile_idem _ _

/-- Failure of `matchGroup` is preserved when a suffix is removed:
contrapositively, a successful match only inspects a prefix. -/
theorem matchGroup_none_of_append {t w : List Char}
    (h : matchGroup (t ++ w) = none) : matchGroup t = none := by
  cases hmg : matchGroup t with
  | none => rfl
  | some r =>
    obtain ⟨body, tail, hs, hne, hb, _⟩ := matchGroup_some_shape hmg
    subst hs
    have h2 : matchGroup (('[' :: body ++ ']' :: tail) ++ w)
        = some ((tail ++ w).dropWhile wsChar) := by
      have h3 := matchGroup_shape_some body (tail ++ w) hne hb
      simpa using h3
    rw [h] at h2
    exact absurd h2 (by simp)

theorem matchMany_none : ∀ (fuel : Nat) (s : List Char), s.length ≤ fuel →
    matchGroup (matchMany fuel s) = none
  | 0, s, h => by
    have : s = [] := List.length_eq_zero.mp (Nat.le_zero.mp h)
    subst this; rfl
  | fuel + 1, s, h => by
    rw [matchMany]
    cases hmg : matchGroup s with
    | none => exact hmg
    | some r =>
      have hlen := matchGroup_length hmg
      exact matchMany_none fuel r (by omega)

theorem matchMany_noLead : ∀ (fuel : Nat) (s : List Char),
    s.dropWhile wsChar = s → (matchMany fuel s).dropWhile wsChar = matchMany fuel s
  | 0, _, h => h
  | fuel + 1, s, h => by
    rw [matchMany]
    cases hmg : matchGroup s with
    | none => exact h
    | some r => exact matchMany_noLead fuel r (matchGroup_noLead hmg)

/-- Decomposition of a trailing-whitespace strip: the remainder is a prefix
and the removed part is all whitespace. -/
theorem stripTrailing_decomp (l : List Char) :
    ∃ w, l = (l.reverse.dropWhile wsChar).reverse ++ w ∧ ∀ c ∈ w, wsChar c := by
  refine ⟨(l.reverse.takeWhile wsChar).reverse, ?_, ?_⟩
  · conv_lhs => rw [← l.reverse_reverse,
      ← List.takeWhile_append_dropWhile (p := wsChar) (l := l.reverse)]
    rw [List.reverse_append]
  · intro c hc
    exact List.mem_takeWhile_imp (List.mem_reverse.mp hc)

theorem dropWhile_fix_of_append {p : Char → Bool} {t w l : List Char}
    (hl : l = t ++ w) (hfix : l.dropWhile p = l) : t.dropWhile p = t := by
  cases t with
  | nil => rfl
  | cons c t' =>
    have hc : p c = false := by
      subst hl
      by_cases h : p c
      · exfalso
        have h2 : (c :: (t' ++ w)).dropWhile p = (t' ++ w).dropWhile p := by
          simp [List.dropWhile_cons, h]
        rw [List.cons_append] at hfix
        rw [hfix] at h2
        have hlen := (List.dropWhile_sublist (l := t' ++ w) p).length_le
        rw [← h2] at hlen
        simp at hlen
      · simpa using h
    simp [List.dropWhile_cons, hc]

theorem matchGroup_subLead_dropWhile (s : List Char) :
    matchGroup ((subLeadingGroups s).dropWhile wsChar) = none := by
  rw [subLeadingGroups]
  cases hmg : matchGroup (s.dropWhile wsChar) with
  | none => exact hmg
  | some r =>
    have hlen : r.length ≤ s.length := by
      have h1 := matchGroup_length hmg
      have h2 : (s.dropWhile wsChar).length ≤ s.length :=
        (List.dropWhile_sublist wsChar).length_le
      omega
    show matchGroup ((matchMany s.length r).dropWhile wsChar) = none
    rw [matchMany_noLead _ _ (matchGroup_noLead hmg)]
    exact matchMany_none _ _ hlen

/-- After `normalize_report_nm`, the result has no leading whitespace, no
trailing whitespace, and no further leading bracketed group. -/
theorem normalize_res_props (s : List Char) :
    (stripEnds (subLeadingGroups s)).dropWhile wsChar = stripEnds (subLeadingGroups s) ∧
    (stripEnds (subLeadingGroups s)).reverse.dropWhile wsChar
      = (stripEnds (subLeadingGroups s)).reverse ∧
    matchGroup (stripEnds (subLeadingGroups s)) = none := by
  have hu1fix : ((subLeadingGroups s).dropWhile wsChar).dropWhile wsChar
      = (subLeadingGroups s).dropWhile wsChar := dropWhile_idem _ _
  have hmgu1 := matchGroup_subLead_dropWhile s
  obtain ⟨w, hw, _⟩ := stripTrailing_decomp ((subLeadingGroups s).dropWhile wsChar)
  have hse : stripEnds (subLeadingGroups s)
      = (((subLeadingGroups s).dropWhile wsChar).reverse.dropWhile wsChar).reverse := rfl
  refine ⟨?_, ?_, ?_⟩
  · rw [hse]; exact dropWhile_fix_of_append hw hu1fix
  · rw [hse, List.reverse_reverse]; exact dropWhile_idem _ _
  · rw [hse]
    exact matchGroup_none_of_append (by rw [← hw]; exact hmgu1)

theorem subLeadingGroups_fixed {t : List Char} (hlead : t.dropWhile wsChar = t)
    (hmg : matchGroup t = none) : subLeadingGroups t = t := by
  rw [subLeadingGroups, hlead, hmg]

theorem stripEnds_fixed {t : List Char} (hlead : t.dropWhile wsChar = t)
    (htrail : t.reverse.dropWhile wsChar = t.reverse) : stripEnds t = t := by
  rw [stripEnds, hlead, htrail, List.reverse_reverse]

/-- C4 (confirmed): the title normalizer is idempotent — for every input
string, normalizing twice equals normalizing once; normalizing an
already-normalized title is a no-op. -/
theorem normalize_report_nm_idempotent (s : String) :
    normalize_report_nm (normalize_report_nm s) = normalize_report_nm s := by
  obtain ⟨h1, h2, h3⟩ := normalize_res_props s.data
  show (⟨stripEnds (subLeadingGroups (stripEnds (subLeadingGroups s.data)))⟩ : String)
      = ⟨stripEnds (subLeadingGroups s.data)⟩
  rw [subLeadingGroups_fixed h1 h3, stripEnds_fixed h1 h2]

/-! ### De-duplication lemmas -/

theorem dedupByKeyAux_subset {α κ : Type} [DecidableEq κ] (key : α → κ) :
    ∀ (l : List α) (seen : List κ) (x : α), x ∈ dedupByKeyAux key seen l → x ∈ l := by
  intro l
  induction l with
  | nil => intro seen x h; simp [dedupByKeyAux] at h
  | cons a as ih =>
    intro seen x h
    rw [dedupByKeyAux] at h
    by_cases hmem : key a ∈ seen
    · rw [if_pos hmem] at h
      exact List.mem_cons_of_mem _ (ih seen x h)
    · rw [if_neg hmem] at h
      rcases List.mem_cons.mp h with h1 | h2
      · exact h1 ▸ List.mem_cons_self _ _
      · exact List.mem_cons_of_mem _ (ih _ x h2)

theorem dedupByKeyAux_pairwise {α κ : Type} [DecidableEq κ] (key : α → κ) :
    ∀ (l : List α) (seen : List κ),
      (dedupByKeyAux key seen l).Pairwise (fun a b => key a ≠ key b) ∧
      ∀ x ∈ dedupByKeyAux key seen l, key x ∉ seen := by
  intro l
  induction l with
  | nil => intro seen; simp [dedupByKeyAux]
  | cons a as ih =>
    intro seen
    rw [dedupByKeyAux]
    by_cases hmem : key a ∈ seen
    · rw [if_pos hmem]
      exact ih seen
    · rw [if_neg hmem]
      obtain ⟨ihp, ihs⟩ := ih (key a :: seen)
      refine ⟨List.Pairwise.cons ?_ ihp, ?_⟩
      · intro b hb heq
        exact ihs b hb (heq ▸ List.mem_cons_self _ _)
      · intro x hx
        rcases List.mem_cons.mp hx with h1 | h2
        · exact h1 ▸ hmem
        · intro hxs
          exact ihs x h2 (List.mem_cons_of_mem _ hxs)

theorem dedupByKey_subset {α κ : Type} [DecidableEq κ] (key : α → κ) (l : List α)
    {x : α} (h : x ∈ dedupByKey key l) : x ∈ l :=
  dedupByKeyAux_subset key l [] x h

theorem dedupByKey_pairwise {α κ : Type} [DecidableEq κ] (key : α → κ) (l : List α) :
    (dedupByKey key l).Pairwise (fun a b => key a ≠ key b) :=
  (dedupByKeyAux_pairwise key l []).1

/-! ### Claim C1: partial-failure tolerance of the detail-enrichment stage -/

/-- C1 (corrected): in the MAJOR pipeline any single-company failure (HTTP
error, non-success status, or empty result — exactly the cases where
`majorStep` yields `none`) causes only that company to be skipped: the
chunk list is as if the company were absent, and every successfully fetched
company still contributes its chunk.  In the RIGHTS-ISSUE pipeline the same
locality holds for the failures the loop tolerates (`riStep` = `.ok none`:
non-success status, missing/empty general-info group, failed overview
fetch) — but NOT for a failed HTTP request, which aborts the run (see the
counterexample). -/
theorem detail_enrichment_partial_failure :
    (∀ (oracle : String → MajorResp) (codes : List String) (c : String),
        majorStep oracle c = none →
        majorChunks oracle codes
          = majorChunks oracle (codes.filter (fun d => decide (d ≠ c)))) ∧
    (∀ (oracle : String → MajorResp) (codes : List String) (c : String)
        (ch : List PiicItem),
        c ∈ codes → majorStep oracle c = some ch → ch ∈ majorChunks oracle codes) ∧
    (∀ (oracle : String → RiResp) (ovOracle : String → Option RiOverview)
        (codes : List String) (c : String),
        riStep oracle ovOracle c = .ok none →
        riLoop oracle ovOracle codes
          = riLoop oracle ovOracle (codes.filter (fun d => decide (d ≠ c)))) := by
  refine ⟨?_, ?_, ?_⟩
  · intro oracle codes c hfail
    simp only [majorChunks]
    induction codes with
    | nil => rfl
    | cons d ds ih =>
      by_cases hdc : d = c
      · subst hdc
        rw [List.filter_cons_of_neg (by simp), List.filterMap_cons, hfail]
        exact ih
      · rw [List.filter_cons_of_pos (by simp [hdc]), List.filterMap_cons,
          List.filterMap_cons]
        cases majorStep oracle d with
        | none => exact ih
        | some b => rw [ih]
  · intro oracle codes c ch hc hstep
    exact List.mem_filterMap.mpr ⟨c, hc, hstep⟩
  · intro oracle ovOracle codes c hfail
    induction codes with
    | nil => rfl
    | cons d ds ih =>
      by_cases hdc : d = c
      · subst hdc
        rw [List.filter_cons_of_neg (by simp)]
        rw [riLoop, hfail]
        exact ih
      · rw [List.filter_cons_of_pos (by simp [hdc])]
        rw [riLoop, riLoop]
        cases hstep : riStep oracle ovOracle d with
        | error e => rfl
        | ok o =>
          cases o with
          | none => exact ih
          | some ch => rw [show riLoop oracle ovOracle ds = _ from ih]

/-- Witness for C1 at concrete inputs: an HTTP failure of major-pipeline
company "A" leaves the chunks as if "A" were absent; successful company "B"
contributes its chunk; and a status-"013" rights-issue company "S" is
skipped with the loop continuing. -/
theorem detail_enrichment_partial_failure_witness :
    (majorStep majorOracleEx "A" = none ∧
      majorChunks majorOracleEx ["A", "B"]
        = majorChunks majorOracleEx (["A", "B"].filter (fun d => decide (d ≠ "A")))) ∧
    ("B" ∈ ["A", "B"] ∧
      majorStep majorOracleEx "B" = some [⟨"20240105000001", "B", "p"⟩] ∧
      [(⟨"20240105000001", "B", "p"⟩ : PiicItem)] ∈ majorChunks majorOracleEx ["A", "B"]) ∧
    (riStep riOracleStatusFail riOvAll "S" = .ok none ∧
      riLoop riOracleStatusFail riOvAll ["S", "B"]
        = riLoop riOracleStatusFail riOvAll (["S", "B"].filter (fun d => decide (d ≠ "S")))) :=
  ⟨⟨by decide, detail_enrichment_partial_failure.1 majorOracleEx ["A", "B"] "A" (by decide)⟩,
   ⟨by decide, by decide,
     detail_enrichment_partial_failure.2.1 majorOracleEx ["A", "B"] "B"
       [⟨"20240105000001", "B", "p"⟩] (by decide) (by decide)⟩,
   ⟨rfl, detail_enrichment_partial_failure.2.2 riOracleStatusFail riOvAll
     ["S", "B"] "S" rfl⟩⟩

/-- Counterexample for C1 as stated: in the rights-issue pipeline a failed
HTTP request on company "A"'s `estkRs` call aborts the whole run — company
"B" gets no output rows even though "B" alone would have produced a chunk. -/
theorem ri_http_failure_aborts_run :
    riLoop riOracleHttpFail riOvAll ["A", "B"] = .error () ∧
    (riLoop riOracleHttpFail riOvAll ["B"]).isOk = true := by
  constructor
  · rfl
  · rfl

/-! ### Claim C2: the exact-window invariant of the enrichment stage -/

/-- C2 (corrected): in the MAJOR pipeline every row surviving
`fetch_paid_increase_decision_df` has a receipt number whose leading 8
characters are an 8-digit date inside the exact requested window, even
though the secondary query used a widened window.  The rights-issue
pipeline performs no such re-filter (see the counterexample). -/
theorem fetch_paid_window_invariant (oracle : String → MajorResp)
    (major_list : List MajorListRow) (bgn_de end_de : String) (r : PiicOut)
    (hr : r ∈ fetch_paid_increase_decision_df oracle major_list bgn_de end_de) :
    isYmd8 (r.item.rcept_no.take 8) = true ∧
    strLe bgn_de (r.item.rcept_no.take 8) = true ∧
    strLe (r.item.rcept_no.take 8) end_de = true := by
  simp only [fetch_paid_increase_decision_df] at hr
  split at hr
  · simp at hr
  · split at hr
    · simp at hr
    · have h2 := dedupByKey_subset _ _ hr
      rw [windowFilter] at h2
      have h3 := (List.mem_filter.mp h2).2
      simp only [Bool.and_eq_true] at h3
      exact ⟨h3.1.1, h3.1.2, h3.2⟩

/-- Witness for C2 at concrete inputs: the row produced by `majorOracleEx`
is in the stage output and its receipt date lies inside the window. -/
theorem fetch_paid_window_invariant_witness :
    majorRowEx ∈ fetch_paid_increase_decision_df majorOracleEx majorListEx
      "20240101" "20240131" ∧
    (isYmd8 (majorRowEx.item.rcept_no.take 8) = true ∧
      strLe "20240101" (majorRowEx.item.rcept_no.take 8) = true ∧
      strLe (majorRowEx.item.rcept_no.take 8) "20240131" = true) :=
  ⟨by decide,
   fetch_paid_window_invariant majorOracleEx majorListEx "20240101" "20240131"
     majorRowEx (by decide)⟩

/-- Counterexample for C2 as stated: in the rights-issue pipeline, for the
requested window 20240101-20240131, a detail row dated 20231001 (admitted by
the widened query) SURVIVES the enrichment stage — its receipt prefix is
outside the requested window and it is not discarded. -/
theorem ri_window_not_refiltered :
    (riBaseOld.map (fun r => r.rcept_no.take 8)) = ["20231001"] ∧
    strLe "20240101" "20231001" = false := by
  constructor
  · rfl
  · rfl

/-! ### Claim C3: the de-duplication key of the enrichment stage -/

/-- C3 (corrected): in the MAJOR pipeline no two rows of the stage output
share the same (corp_code, rcept_no) pair — the composite key is the
de-duplication key.  In the RIGHTS-ISSUE pipeline `_safe_concat` only drops
fully identical rows: the output never contains two identical rows, but two
DISTINCT rows may share the (company code, receipt number) pair (see the
counterexample). -/
theorem detail_enrichment_dedup :
    (∀ (oracle : String → MajorResp) (major_list : List MajorListRow)
        (bgn_de end_de : String),
        (fetch_paid_increase_decision_df oracle major_list bgn_de end_de).Pairwise
          (fun a b => ¬(a.item.corp_code = b.item.corp_code ∧
            a.item.rcept_no = b.item.rcept_no))) ∧
    (∀ (frames : List (List RiBaseRow)), (safeConcat frames).Nodup) := by
  constructor
  · intro oracle major_list bgn_de end_de
    simp only [fetch_paid_increase_decision_df]
    split
    · simp
    · split
      · simp
      · refine (dedupByKey_pairwise _ _).imp ?_
        intro a b hne ⟨h1, h2⟩
        exact hne (by rw [Prod.mk.injEq]; exact ⟨h1, h2⟩)
  · intro frames
    cases frames with
    | nil => simp [safeConcat]
    | cons f fs =>
      refine (dedupByKey_pairwise id _).imp ?_
      intro a b hne
      exact hne

/-- Counterexample for C3 as stated: with a two-row security-kind group, the
rights-issue enrichment output contains two distinct surviving rows sharing
the same (company code, receipt number) pair. -/
theorem ri_dedup_key_counterexample :
    (riBaseTwoKinds.map (fun r => (r.corp_code, r.rcept_no)))
      = [("C", "20240105000001"), ("C", "20240105000001")] ∧
    riBaseTwoKinds.Nodup := by
  constructor
  · rfl
  · decide

/-! ### Claim C7: the category filter -/

/-- C7 (corrected): the MAJOR pipeline retains exactly the records whose
normalized title is a member of the fixed allow-list (exact equality
membership).  The RIGHTS-ISSUE pipeline instead retains the records whose
RAW title contains the configured report name as a substring — containment,
not exact normalized membership (see the counterexample). -/
theorem category_filter_membership :
    (∀ (rows : List ListRec) (r : ListRec),
        r ∈ (get_major_report_list rows).map MajorListRow.lrow ↔
          r ∈ rows ∧
            (normalize_report_nm r.report_nm = "주요사항보고서(유상증자결정)" ∨
             normalize_report_nm r.report_nm = "주요사항보고서(전환사채권발행결정)" ∨
             normalize_report_nm r.report_nm = "주요사항보고서(신주인수권부사채발행결정)")) ∧
    (∀ (report_name : String) (items : List ListRec) (r : ListRec),
        r ∈ (build_report_df report_name none items).map MajorListRow.lrow ↔
          r ∈ items ∧ containsStr report_name r.report_nm = true) := by
  constructor
  · intro rows r
    simp only [get_major_report_list, List.map_map, List.mem_map, Function.comp,
      List.mem_filter, decide_eq_true_eq, TARGET_REPORT_TITLES, List.mem_cons,
      List.not_mem_nil, or_false]
    constructor
    · rintro ⟨a, ⟨ha, hP⟩, rfl⟩
      exact ⟨ha, hP⟩
    · rintro ⟨ha, hP⟩
      exact ⟨r, ⟨ha, hP⟩, rfl⟩
  · intro report_name items r
    simp only [build_report_df, List.map_map, List.mem_map, Function.comp,
      List.mem_filter]
    constructor
    · rintro ⟨a, ⟨ha, hP⟩, rfl⟩
      exact ⟨ha, hP⟩
    · rintro ⟨ha, hP⟩
      exact ⟨r, ⟨ha, hP⟩, rfl⟩

/-- Counterexample for C7 as stated: a record whose raw title strictly
contains the rights-issue report name is retained by the rights-issue
category filter although its normalized title is not equal to that name and
belongs to no fixed allow-list. -/
theorem ri_category_filter_counterexample :
    (build_report_df "증권신고서(지분증권)" none [looseTitleRec]).map MajorListRow.lrow
      = [looseTitleRec] ∧
    normalize_report_nm looseTitleRec.report_nm ≠ "증권신고서(지분증권)" ∧
    normalize_report_nm looseTitleRec.report_nm ∉ TARGET_REPORT_TITLES := by
  refine ⟨rfl, ?_, ?_⟩ <;> decide

/-! ### Stable-sort lemmas (shared by the review-list and company-order
claims).  `List.insertionSort` with a total preorder is the unique stable
sort, hence a faithful model of `sort_values(kind="mergesort")`. -/

theorem orderedInsert_of_le_all {α : Type} (r : α → α → Prop) [DecidableRel r] (a : α) :
    ∀ (l : List α), (∀ b ∈ l, r a b) → l.orderedInsert r a = a :: l
  | [], _ => rfl
  | y :: ys, h => by
    rw [List.orderedInsert, if_pos (h y (List.mem_cons_self y ys))]

theorem orderedInsert_filter {α : Type} (r : α → α → Prop) [DecidableRel r]
    [IsTotal α r] [IsTrans α r] (p : α → Bool) (a : α) :
    ∀ (l : List α), l.Sorted r →
      (l.orderedInsert r a).filter p =
        if p a then (l.filter p).orderedInsert r a else l.filter p := by
  intro l
  induction l with
  | nil =>
    intro _
    by_cases hpa : p a
    · simp [List.orderedInsert, hpa]
    · simp [List.orderedInsert, hpa]
  | cons y ys ih =>
    intro hs
    obtain ⟨hy, hys⟩ := List.sorted_cons.mp hs
    rw [List.orderedInsert]
    by_cases hray : r a y
    · rw [if_pos hray]
      by_cases hpa : p a
      · rw [if_pos hpa, List.filter_cons_of_pos hpa]
        refine (orderedInsert_of_le_all r a _ ?_).symm
        intro b hb
        have hbmem := List.mem_of_mem_filter hb
        rcases List.mem_cons.mp hbmem with rfl | hbys
        · exact hray
        · exact IsTrans.trans _ _ _ hray (hy b hbys)
      · rw [if_neg hpa, List.filter_cons_of_neg hpa]
    · rw [if_neg hray]
      by_cases hpy : p y
      · rw [List.filter_cons_of_pos hpy, List.filter_cons_of_pos hpy, ih hys]
        by_cases hpa : p a
        · rw [if_pos hpa, if_pos hpa, List.orderedInsert, if_neg hray]
        · rw [if_neg hpa, if_neg hpa]
      · rw [List.filter_cons_of_neg hpy, List.filter_cons_of_neg hpy, ih hys]

theorem insertionSort_filter {α : Type} (r : α → α → Prop) [DecidableRel r]
    [IsTotal α r] [IsTrans α r] (p : α → Bool) :
    ∀ (l : List α), (l.insertionSort r).filter p = (l.filter p).insertionSort r
  | [] => rfl
  | a :: l => by
    rw [List.insertionSort,
      orderedInsert_filter r p a _ (List.sorted_insertionSort r l)]
    by_cases hpa : p a
    · rw [if_pos hpa, List.filter_cons_of_pos hpa, List.insertionSort,
        insertionSort_filter r p l]
    · rw [if_neg hpa, List.filter_cons_of_neg hpa]
      exact insertionSort_filter r p l

theorem insertionSort_eq_self_of_all {α : Type} (r : α → α → Prop) [DecidableRel r] :
    ∀ (l : List α), (∀ a ∈ l, ∀ b ∈ l, r a b) → l.insertionSort r = l
  | [], _ => rfl
  | a :: l, h => by
    rw [List.insertionSort,
      insertionSort_eq_self_of_all r l
        (fun x hx y hy => h x (List.mem_cons_of_mem a hx) y (List.mem_cons_of_mem a hy))]
    exact orderedInsert_of_le_all r a l
      (fun b hb => h a (List.mem_cons_self a l) b (List.mem_cons_of_mem a hb))

/-! ### Claim C5: the division guard of FinancialDerivation -/

/-- C5 (confirmed): for every row the derived unit price is a defined,
finite integer — `astype(int)` always receives a finite value — and a zero
aggregate unit count (including the 0/0 case) yields exactly zero rather
than an error or a non-finite value. -/
theorem nstk_ps_total_and_zero_guard (amounts counts : List String) :
    (∃ z : ℤ, nstk_ps amounts counts = some z) ∧
    (nstk_sum counts = 0 → nstk_ps amounts counts = some 0) := by
  by_cases hb : nstk_sum counts = 0
  · have h0 : nstk_ps amounts counts = some 0 := by
      unfold nstk_ps fdiv
      rw [if_pos hb]
      have hr0 : roundHalfEven 0 = 0 := by norm_num [roundHalfEven]
      by_cases h1 : 0 < fdpp_sum amounts
      · rw [if_pos h1]
        show some (roundHalfEven 0) = some 0
        rw [hr0]
      · rw [if_neg h1]
        by_cases h2 : fdpp_sum amounts < 0
        · rw [if_pos h2]
          show some (roundHalfEven 0) = some 0
          rw [hr0]
        · rw [if_neg h2]
          show some (roundHalfEven 0) = some 0
          rw [hr0]
    exact ⟨⟨0, h0⟩, fun _ => h0⟩
  · refine ⟨⟨roundHalfEven (fdpp_sum amounts / nstk_sum counts), ?_⟩,
      fun h => absurd h hb⟩
    unfold nstk_ps fdiv
    rw [if_neg hb]
    rfl

/-- Witness for C5 at a concrete row: with no unit-count columns the
aggregate count is the literal 0 and the unit price is coerced to zero. -/
theorem nstk_ps_total_and_zero_guard_witness :
    nstk_sum [] = 0 ∧ nstk_ps ["1,000"] [] = some 0 :=
  ⟨by simp [nstk_sum], (nstk_ps_total_and_zero_guard ["1,000"] []).2 (by simp [nstk_sum])⟩

/-! ### Claim C10: the cross-sheet company-ordering sort -/

/-- C10 (confirmed): `_sort_by_company_order` returns an empty table, a
table without the company column, and any table sorted against an empty
base order unchanged; otherwise it permutes the rows into an arrangement
sorted by base-order position with rows of unknown or missing company
placed after all ordered rows (`rankLe` encodes exactly this), and the sort
is stable: the rows of every fixed rank keep their original relative
order. -/
theorem sort_by_company_order_spec :
    (∀ (order : List String) (t : DerivedTable),
        (t.rows = [] ∨ t.hasCompanyCol = false ∨ order = []) →
        sortByCompanyOrder order t = t) ∧
    (∀ (order : List String) (t : DerivedTable),
        (sortByCompanyOrder order t).rows.Perm t.rows) ∧
    (∀ (order : List String) (t : DerivedTable),
        t.rows ≠ [] → t.hasCompanyCol = true → order ≠ [] →
        (sortByCompanyOrder order t).rows.Sorted (rankLe order)) ∧
    (∀ (order : List String) (t : DerivedTable) (v : Option Nat),
        (sortByCompanyOrder order t).rows.filter
            (fun row => decide (companyRank order row = v))
          = t.rows.filter (fun row => decide (companyRank order row = v))) := by
  have hguard : ∀ (order : List String) (t : DerivedTable),
      (t.rows = [] ∨ t.hasCompanyCol = false ∨ order = []) →
      sortByCompanyOrder order t = t := by
    intro order t h
    rw [sortByCompanyOrder, if_pos h]
  refine ⟨hguard, ?_, ?_, ?_⟩
  · intro order t
    rw [sortByCompanyOrder]
    by_cases h : t.rows = [] ∨ t.hasCompanyCol = false ∨ order = []
    · rw [if_pos h]
    · rw [if_neg h]
      exact List.perm_insertionSort _ _
  · intro order t h1 h2 h3
    rw [sortByCompanyOrder, if_neg (by simp [h1, h2, h3])]
    exact List.sorted_insertionSort _ _
  · intro order t v
    rw [sortByCompanyOrder]
    by_cases h : t.rows = [] ∨ t.hasCompanyCol = false ∨ order = []
    · rw [if_pos h]
    · rw [if_neg h]
      show (t.rows.insertionSort (rankLe order)).filter _ = _
      rw [insertionSort_filter (rankLe order) _ t.rows]
      refine insertionSort_eq_self_of_all (rankLe order) _ ?_
      intro a ha b hb
      have hav := of_decide_eq_true (List.mem_filter.mp ha).2
      have hbv := of_decide_eq_true (List.mem_filter.mp hb).2
      unfold rankLe rankLeB
      rw [hav, hbv]
      cases v with
      | none => rfl
      | some i => simp

/-- Witness for C10 at concrete inputs: an empty base order leaves the table
unchanged, and sorting against a real order yields a rank-sorted row list. -/
theorem sort_by_company_order_spec_witness :
    sortByCompanyOrder [] derivedTableEx = derivedTableEx ∧
    (sortByCompanyOrder ["가사", "나사"] derivedTableEx).rows.Sorted
      (rankLe ["가사", "나사"]) :=
  ⟨sort_by_company_order_spec.1 [] derivedTableEx (Or.inr (Or.inr rfl)),
   sort_by_company_order_spec.2.2.1 ["가사", "나사"] derivedTableEx
     (by decide) (by decide) (by decide)⟩

/-! ### Order properties of the code-point comparison -/

theorem char_toNat_inj {a b : Char} (h : a.toNat = b.toNat) : a = b :=
  Char.ext (UInt32.toNat.inj h)

theorem listLe_refl : ∀ (a : List Char), listLe a a = true
  | [] => rfl
  | c :: cs => by
    rw [listLe, if_neg (by omega), if_neg (by omega)]
    exact listLe_refl cs

theorem listLe_total : ∀ (a b : List Char), listLe a b = true ∨ listLe b a = true
  | [], _ => Or.inl rfl
  | _ :: _, [] => Or.inr rfl
  | a :: as, b :: bs => by
    rcases Nat.lt_trichotomy a.toNat b.toNat with h | h | h
    · left; rw [listLe, if_pos h]
    · rw [listLe, listLe, if_neg (by omega), if_neg (by omega),
        if_neg (by omega), if_neg (by omega)]
      exact listLe_total as bs
    · right; rw [listLe, if_pos h]

theorem listLe_antisymm : ∀ {a b : List Char},
    listLe a b = true → listLe b a = true → a = b
  | [], [], _, _ => rfl
  | [], _ :: _, _, h2 => by simp [listLe] at h2
  | _ :: _, [], h1, _ => by simp [listLe] at h1
  | a :: as, b :: bs, h1, h2 => by
    rcases Nat.lt_trichotomy a.toNat b.toNat with h | h | h
    · rw [listLe, if_neg (by omega), if_pos h] at h2
      exact absurd h2 (by simp)
    · rw [listLe, if_neg (by omega), if_neg (by omega)] at h1
      rw [listLe, if_neg (by omega), if_neg (by omega)] at h2
      rw [char_toNat_inj h, listLe_antisymm h1 h2]
    · rw [listLe, if_neg (by omega), if_pos h] at h1
      exact absurd h1 (by simp)

theorem listLe_trans : ∀ {a b c : List Char},
    listLe a b = true → listLe b c = true → listLe a c = true
  | [], _, _, _, _ => rfl
  | _ :: _, [], _, h1, _ => by simp [listLe] at h1
  | _ :: _, _ :: _, [], _, h2 => by simp [listLe] at h2
  | a :: as, b :: bs, c :: cs, h1, h2 => by
    rw [listLe] at h1 h2 ⊢
    rcases Nat.lt_trichotomy a.toNat b.toNat with hab | hab | hab
    · rcases Nat.lt_trichotomy b.toNat c.toNat with hbc | hbc | hbc
      · rw [if_pos (by omega)]
      · rw [if_pos (by omega)]
      · rw [if_neg (by omega), if_pos (by omega)] at h2
        exact absurd h2 (by simp)
    · rcases Nat.lt_trichotomy b.toNat c.toNat with hbc | hbc | hbc
      · rw [if_pos (by omega)]
      · rw [if_neg (by omega), if_neg (by omega)] at h1 h2 ⊢
        exact listLe_trans h1 h2
      · rw [if_neg (by omega), if_pos (by omega)] at h2
        exact absurd h2 (by simp)
    · rw [if_neg (by omega), if_pos (by omega)] at h1
      exact absurd h1 (by simp)

theorem strLe_total (a b : String) : strLe a b = true ∨ strLe b a = true :=
  listLe_total a.data b.data

theorem strLe_antisymm {a b : String} (h1 : strLe a b = true)
    (h2 : strLe b a = true) : a = b := by
  have := listLe_antisymm h1 h2
  cases a; cases b; exact congrArg String.mk this

theorem strLe_trans {a b c : String} (h1 : strLe a b = true)
    (h2 : strLe b c = true) : strLe a c = true :=
  listLe_trans h1 h2

/-! ### Order properties of the composed comparators -/

theorem ascThen_total {α : Type} (f : α → String) (tail : α → α → Bool)
    (ht : ∀ a b, tail a b = true ∨ tail b a = true) (a b : α) :
    ascThen f tail a b = true ∨ ascThen f tail b a = true := by
  unfold ascThen
  by_cases h : f a = f b
  · rw [if_pos h, if_pos h.symm]; exact ht a b
  · rw [if_neg h, if_neg (fun hh => h hh.symm)]
    exact strLe_total _ _

theorem ascThen_trans {α : Type} (f : α → String) (tail : α → α → Bool)
    (htr : ∀ a b c, tail a b = true → tail b c = true → tail a c = true)
    (a b c : α) (h1 : ascThen f tail a b = true) (h2 : ascThen f tail b c = true) :
    ascThen f tail a c = true := by
  unfold ascThen at h1 h2 ⊢
  by_cases hab : f a = f b <;> by_cases hbc : f b = f c
  · rw [if_pos hab] at h1
    rw [if_pos hbc] at h2
    rw [if_pos (hab.trans hbc)]
    exact htr a b c h1 h2
  · rw [if_neg hbc] at h2
    rw [if_neg (fun h => hbc (hab.symm.trans h)), hab]
    exact h2
  · rw [if_neg hab] at h1
    rw [if_neg (fun h => hab (h.trans hbc.symm)), ← hbc]
    exact h1
  · rw [if_neg hab] at h1
    rw [if_neg hbc] at h2
    have hac : f a ≠ f c := by
      intro h
      rw [← h] at h2
      exact hab (strLe_antisymm h1 h2)
    rw [if_neg hac]
    exact strLe_trans h1 h2

theorem descThen_total {α : Type} (f : α → String) (tail : α → α → Bool)
    (ht : ∀ a b, tail a b = true ∨ tail b a = true) (a b : α) :
    descThen f tail a b = true ∨ descThen f tail b a = true := by
  unfold descThen
  by_cases h : f a = f b
  · rw [if_pos h, if_pos h.symm]; exact ht a b
  · rw [if_neg h, if_neg (fun hh => h hh.symm)]
    rcases strLe_total (f a) (f b) with hh | hh
    · exact Or.inr hh
    · exact Or.inl hh

theorem descThen_trans {α : Type} (f : α → String) (tail : α → α → Bool)
    (htr : ∀ a b c, tail a b = true → tail b c = true → tail a c = true)
    (a b c : α) (h1 : descThen f tail a b = true) (h2 : descThen f tail b c = true) :
    descThen f tail a c = true := by
  unfold descThen at h1 h2 ⊢
  by_cases hab : f a = f b <;> by_cases hbc : f b = f c
  · rw [if_pos hab] at h1
    rw [if_pos hbc] at h2
    rw [if_pos (hab.trans hbc)]
    exact htr a b c h1 h2
  · rw [if_neg hbc] at h2
    rw [if_neg (fun h => hbc (hab.symm.trans h)), hab]
    exact h2
  · rw [if_neg hab] at h1
    rw [if_neg (fun h => hab (h.trans hbc.symm)), ← hbc]
    exact h1
  · rw [if_neg hab] at h1
    rw [if_neg hbc] at h2
    have hac : f a ≠ f c := by
      intro h
      rw [← h] at h2
      exact hab (strLe_antisymm h2 h1)
    rw [if_neg hac]
    exact strLe_trans h2 h1

theorem keyLe_total_aux (a b : CheckRow) : keyLeB a b = true ∨ keyLeB b a = true := by
  unfold keyLeB
  refine descThen_total _ _ (fun x y => ?_) a b
  rcases strLe_total y.rcept_no x.rcept_no with h | h
  · exact Or.inl h
  · exact Or.inr h

theorem keyLe_trans_aux (a b c : CheckRow) (h1 : keyLeB a b = true)
    (h2 : keyLeB b c = true) : keyLeB a c = true := by
  unfold keyLeB at h1 h2 ⊢
  refine descThen_trans (fun r => r.rcept_dt) (fun x y => strLe y.rcept_no x.rcept_no)
    ?_ a b c h1 h2
  intro x y z hx hy
  exact strLe_trans hy hx

instance : IsTotal CheckRow keyLe := ⟨by
  intro a b
  unfold keyLe
  exact keyLe_total_aux a b⟩

instance : IsTrans CheckRow keyLe := ⟨by
  intro a b c
  unfold keyLe
  exact keyLe_trans_aux a b c⟩

instance : IsTotal CheckRow checkLe := ⟨by
  intro a b
  unfold checkLe checkLeB
  exact ascThen_total _ _ keyLe_total_aux a b⟩

instance : IsTrans CheckRow checkLe := ⟨by
  intro a b c
  unfold checkLe checkLeB
  exact ascThen_trans _ _ keyLe_trans_aux a b c⟩

/-! ### Head and congruence lemmas for the stable sort -/

theorem head?_orderedInsert {α : Type} (r : α → α → Prop) [DecidableRel r] (a : α) :
    ∀ (l : List α), (l.orderedInsert r a).head? =
      some (match l.head? with | none => a | some y => if r a y then a else y)
  | [] => rfl
  | y :: ys => by
    rw [List.orderedInsert]
    by_cases h : r a y
    · simp [h]
    · simp [h]

theorem head?_insertionSort {α : Type} (r : α → α → Prop) [DecidableRel r] :
    ∀ (l : List α), (l.insertionSort r).head? = bestFirst r l
  | [] => rfl
  | a :: l => by
    rw [List.insertionSort, head?_orderedInsert r a, head?_insertionSort r l, bestFirst]

theorem bestFirst_eq_none_iff {α : Type} (r : α → α → Prop) [DecidableRel r]
    (l : List α) : bestFirst r l = none ↔ l = [] := by
  cases l with
  | nil => simp [bestFirst]
  | cons a l => simp [bestFirst]

theorem insertionSort_eq_nil_iff {α : Type} (r : α → α → Prop) [DecidableRel r]
    (l : List α) : l.insertionSort r = [] ↔ l = [] := by
  constructor
  · intro h
    have hlen := List.length_insertionSort r l
    rw [h] at hlen
    exact List.length_eq_zero.mp hlen.symm
  · rintro rfl; rfl

theorem take_one_eq_head_toList {α : Type} : ∀ (l : List α), l.take 1 = l.head?.toList
  | [] => rfl
  | _ :: _ => rfl

theorem orderedInsert_congr {α : Type} (r r' : α → α → Prop)
    [DecidableRel r] [DecidableRel r'] (a : α) :
    ∀ (l : List α), (∀ b ∈ l, (r a b ↔ r' a b)) →
      l.orderedInsert r a = l.orderedInsert r' a
  | [], _ => rfl
  | y :: ys, h => by
    rw [List.orderedInsert, List.orderedInsert]
    by_cases hy : r a y
    · rw [if_pos hy, if_pos ((h y (List.mem_cons_self y ys)).mp hy)]
    · rw [if_neg hy, if_neg (fun h' => hy ((h y (List.mem_cons_self y ys)).mpr h')),
        orderedInsert_congr r r' a ys (fun b hb => h b (List.mem_cons_of_mem y hb))]

theorem insertionSort_congr {α : Type} (r r' : α → α → Prop)
    [DecidableRel r] [DecidableRel r'] :
    ∀ (l : List α), (∀ a ∈ l, ∀ b ∈ l, (r a b ↔ r' a b)) →
      l.insertionSort r = l.insertionSort r'
  | [], _ => rfl
  | a :: l, h => by
    rw [List.insertionSort, List.insertionSort,
      insertionSort_congr r r' l
        (fun x hx y hy => h x (List.mem_cons_of_mem a hx) y (List.mem_cons_of_mem a hy))]
    refine orderedInsert_congr r r' a _ (fun b hb => ?_)
    have hbl : b ∈ l := (List.mem_insertionSort r').mp hb
    exact h a (List.mem_cons_self a l) b (List.mem_cons_of_mem a hbl)

/-! ### Review-list helper lemmas -/

theorem mem_pickLatest {r : CheckRow} {grp : List CheckRow}
    (h : r ∈ pickLatest grp) : r ∈ grp := by
  simp only [pickLatest] at h
  split at h
  · exact List.take_subset 1 grp h
  · have hmem := List.take_subset 1 _ h
    exact (List.mem_filter.mp hmem).1

theorem flatMap_eq_single {κ β : Type} [DecidableEq κ] (G : κ → List β) (c : κ)
    (hoff : ∀ k, k ≠ c → G k = []) :
    ∀ (keys : List κ), keys.Nodup →
      keys.flatMap G = if c ∈ keys then G c else []
  | [], _ => by simp
  | k :: ks, h => by
    rw [List.flatMap_cons, flatMap_eq_single G c hoff ks (List.Nodup.of_cons h)]
    by_cases hk : k = c
    · have hnot : c ∉ ks := hk ▸ (List.nodup_cons.mp h).1
      rw [if_neg hnot, hk, if_pos (List.mem_cons_self c ks), List.append_nil]
    · rw [hoff k hk, List.nil_append]
      by_cases hc : c ∈ ks
      · rw [if_pos hc, if_pos (List.mem_cons_of_mem k hc)]
      · rw [if_neg hc, if_neg (by
          intro hmem
          rcases List.mem_cons.mp hmem with h1 | h2
          · exact hk h1.symm
          · exact hc h2)]

theorem mem_dedupByKeyAux_id {κ : Type} [DecidableEq κ] (x : κ) :
    ∀ (l : List κ) (seen : List κ), x ∈ l → x ∉ seen →
      x ∈ dedupByKeyAux id seen l
  | [], _, hx, _ => absurd hx (List.not_mem_nil x)
  | a :: as, seen, hx, hseen => by
    rw [dedupByKeyAux]
    by_cases hmem : id a ∈ seen
    · rw [if_pos hmem]
      rcases List.mem_cons.mp hx with rfl | hxs
      · exact absurd hmem hseen
      · exact mem_dedupByKeyAux_id x as seen hxs hseen
    · rw [if_neg hmem]
      by_cases hxa : x = a
      · exact hxa ▸ List.mem_cons_self _ _
      · rcases List.mem_cons.mp hx with rfl | hxs
        · exact absurd rfl hxa
        · refine List.mem_cons_of_mem _ (mem_dedupByKeyAux_id x as (id a :: seen) hxs ?_)
          intro hx2
          rcases List.mem_cons.mp hx2 with h1 | h2
          · exact hxa h1
          · exact hseen h2

theorem checkLe_iff_keyLe_of_same {a b : CheckRow}
    (h : a.corp_name = b.corp_name) : checkLe a b ↔ keyLe a b := by
  unfold checkLe checkLeB ascThen keyLe
  rw [if_pos h]

theorem pickLatest_sorted (g : List CheckRow) :
    pickLatest (g.insertionSort keyLe) = (reviewRep g).toList := by
  simp only [pickLatest, reviewRep]
  rw [insertionSort_filter keyLe (fun r => isFinalized r.report_nm) g]
  cases hbf : bestFirst keyLe (g.filter (fun r => isFinalized r.report_nm)) with
  | none =>
    have hf : g.filter (fun r => isFinalized r.report_nm) = [] :=
      (bestFirst_eq_none_iff _ _).mp hbf
    rw [hf]
    rw [if_pos (show List.insertionSort keyLe ([] : List CheckRow) = [] from rfl),
      take_one_eq_head_toList, head?_insertionSort]
  | some m =>
    have hf : g.filter (fun r => isFinalized r.report_nm) ≠ [] := by
      intro h
      rw [h] at hbf
      simp [bestFirst] at hbf
    rw [if_neg (fun h => hf ((insertionSort_eq_nil_iff keyLe _).mp h)),
      take_one_eq_head_toList, head?_insertionSort, hbf]

/-! ### Claim C6: the review-list tie-break -/

/-- C6 (confirmed): for every input and company, the review-list rows for
that company are exactly one entry when the company has any marked
(correction or finalized-condition) row and none otherwise, and the chosen
representative is computed by `reviewRep`: the first-in-input-order row
maximal by (receipt date descending, receipt number descending) among the
finalized-condition rows if any exist, otherwise among all of the company's
marked rows — most-recent selection with finalized preference and stable
(input-order) tie-breaking, independent of the input order of other
companies. -/
theorem review_list_selection (report_df : List MajorListRow) (c : String) :
    (build_check_list report_df).filter (fun e => decide (e.corp_name = c))
      = ((reviewRep (((report_df.filter
            (fun r => hasCheckMarker r.lrow.report_nm)).map checkRowOf).filter
              (fun r => decide (r.corp_name = c)))).toList).map checkEntryOf := by
  simp only [build_check_list]
  generalize hA : (report_df.filter
    (fun r => hasCheckMarker r.lrow.report_nm)).map checkRowOf = A
  split
  · rename_i hempty
    rw [hempty]
    rfl
  · rename_i hne
    rw [List.filter_map]
    rw [show ((fun e : CheckEntry => decide (e.corp_name = c)) ∘ checkEntryOf)
        = (fun r : CheckRow => decide (r.corp_name = c)) from rfl]
    rw [List.filter_flatMap]
    have hoff : ∀ k, k ≠ c →
        (pickLatest ((A.insertionSort checkLe).filter
          (fun r => decide (r.corp_name = k)))).filter
            (fun r => decide (r.corp_name = c)) = [] := by
      intro k hk
      refine List.filter_eq_nil_iff.mpr (fun r hr => ?_)
      have hmem := mem_pickLatest hr
      have hrk := of_decide_eq_true (List.mem_filter.mp hmem).2
      simp [hrk, hk]
    have hnodup : (dedupByKey id
        ((A.insertionSort checkLe).map (fun r => r.corp_name))).Nodup := by
      have := dedupByKey_pairwise id
        ((A.insertionSort checkLe).map (fun r => r.corp_name))
      exact this.imp (fun h => h)
    rw [flatMap_eq_single _ c hoff _ hnodup]
    have hfilter_c : (A.insertionSort checkLe).filter
        (fun r => decide (r.corp_name = c))
        = (A.filter (fun r => decide (r.corp_name = c))).insertionSort keyLe := by
      rw [insertionSort_filter checkLe (fun r => decide (r.corp_name = c)) A]
      refine insertionSort_congr checkLe keyLe _ ?_
      intro a ha b hb
      have ha' := of_decide_eq_true (List.mem_filter.mp ha).2
      have hb' := of_decide_eq_true (List.mem_filter.mp hb).2
      exact checkLe_iff_keyLe_of_same (ha'.trans hb'.symm)
    by_cases hc : c ∈ dedupByKey id
        ((A.insertionSort checkLe).map (fun r => r.corp_name))
    · rw [if_pos hc]
      have hall : (pickLatest ((A.insertionSort checkLe).filter
          (fun r => decide (r.corp_name = c)))).filter
            (fun r => decide (r.corp_name = c))
          = pickLatest ((A.insertionSort checkLe).filter
              (fun r => decide (r.corp_name = c))) := by
        refine List.filter_eq_self.mpr (fun r hr => ?_)
        exact (List.mem_filter.mp (mem_pickLatest hr)).2
      rw [hall, hfilter_c, pickLatest_sorted]
    · rw [if_neg hc]
      have hgnil : A.filter (fun r => decide (r.corp_name = c)) = [] := by
        by_contra hgne
        obtain ⟨r, hr⟩ := List.exists_mem_of_ne_nil _ hgne
        obtain ⟨hrA, hrc⟩ := List.mem_filter.mp hr
        have hrs : r ∈ A.insertionSort checkLe :=
          (List.mem_insertionSort checkLe).mpr hrA
        have hmap : c ∈ (A.insertionSort checkLe).map (fun r => r.corp_name) :=
          List.mem_map.mpr ⟨r, hrs, of_decide_eq_true hrc⟩
        exact hc (mem_dedupByKeyAux_id c _ [] hmap (List.not_mem_nil c))
      rw [hgnil]
      rfl

/-! ### Document-extraction helper lemmas -/

theorem foldl_pres_mem {α β : Type} (f : β → α → β) (P : β → Prop) :
    ∀ (l : List α), (∀ st a, a ∈ l → P st → P (f st a)) →
      ∀ st, P st → P (l.foldl f st)
  | [], _, _, h => h
  | a :: l, hstep, st, h =>
    foldl_pres_mem f P l (fun st' b hb => hstep st' b (List.mem_cons_of_mem a hb))
      (f st a) (hstep st a (List.mem_cons_self a l) h)

theorem snd_mem_of_mem_enumFrom {α : Type} :
    ∀ {l : List α} {n : Nat} {ic : Nat × α}, ic ∈ l.enumFrom n → ic.2 ∈ l := by
  intro l
  induction l with
  | nil => intro n ic h; simp [List.enumFrom] at h
  | cons a t ih =>
    intro n ic h
    rw [List.enumFrom] at h
    rcases List.mem_cons.mp h with rfl | h2
    · exact List.mem_cons_self a t
    · exact List.mem_cons_of_mem _ (ih h2)

theorem mainScanStep_rep_mono (cells : List String) (st : MainScanState)
    (ic : Nat × String) (v : String) (h : st.rep = some v) :
    (mainScanStep cells st ic).rep = some v := by
  unfold mainScanStep
  split_ifs with h1 h2 h3
  · simp [h] at h1
  · exact h
  · exact h
  · exact h

theorem mainScanStep_addr_mono (cells : List String) (st : MainScanState)
    (ic : Nat × String) (v : String) (h : st.addr = some v) :
    (mainScanStep cells st ic).addr = some v := by
  unfold mainScanStep
  split_ifs with h1 h2 h3
  · exact h
  · simp [h] at h2
  · exact h
  · exact h

theorem mainScanStep_ws_mono (cells : List String) (st : MainScanState)
    (ic : Nat × String) (i : Nat) (h : st.writer_start = some i) :
    (mainScanStep cells st ic).writer_start = some i := by
  unfold mainScanStep
  split_ifs with h1 h2 h3
  · exact h
  · exact h
  · simp [h] at h3
  · exact h

theorem writerStep_title_mono (st : WriterState) (t : String) (v : String)
    (h : st.wtitle = some v) : (writerStep st t).wtitle = some v := by
  unfold writerStep
  split_ifs with h1 h2 h3
  · simp [h] at h1
  · exact h
  · exact h
  · exact h

theorem writerStep_name_mono (st : WriterState) (t : String) (v : String)
    (h : st.wname = some v) : (writerStep st t).wname = some v := by
  unfold writerStep
  split_ifs with h1 h2 h3
  · exact h
  · simp [h] at h2
  · exact h
  · exact h

theorem writerStep_phone_mono (st : WriterState) (t : String) (v : String)
    (h : st.wphone = some v) : (writerStep st t).wphone = some v := by
  unfold writerStep
  split_ifs with h1 h2 h3
  · exact h
  · exact h
  · simp [h] at h3
  · exact h

theorem normDash_ne_strings (t : String) :
    normDash t ≠ some "" ∧ normDash t ≠ some "-" := by
  rw [normDash]
  split_ifs with h
  · exact ⟨by simp, by simp⟩
  · push_neg at h
    exact ⟨fun hc => h.1 (Option.some.inj hc), fun hc => h.2 (Option.some.inj hc)⟩

theorem writerStep_skip (st : WriterState) (t : String)
    (h1 : containsStr "직책" (normCellStr t) = false)
    (h2 : containsStr "성명" (normCellStr t) = false)
    (h3 : containsStr "전화" (normCellStr t) = false) :
    writerStep st t = st := by
  unfold writerStep
  rw [h1, h2, h3]
  rfl

theorem writerScan_title_eq_find :
    ∀ (l : List String) (st : WriterState), st.wtitle = none →
      (l.foldl writerStep st).wtitle
        = (l.find? (fun t => containsStr "직책" (normCellStr t))).map
            (stripEcho '직' '책') := by
  intro l
  induction l with
  | nil =>
    intro st h
    simpa using h
  | cons t l ih =>
    intro st h
    by_cases hp : containsStr "직책" (normCellStr t) = true
    · have hstep : (writerStep st t).wtitle = some (stripEcho '직' '책' t) := by
        unfold writerStep
        rw [if_pos (by rw [hp, h]; rfl)]
      rw [List.foldl_cons]
      rw [foldl_pres_mem writerStep
        (fun s => s.wtitle = some (stripEcho '직' '책' t)) l
        (fun s a _ hs => writerStep_title_mono s a _ hs) _ hstep]
      rw [List.find?_cons_of_pos (p := fun t => containsStr "직책" (normCellStr t)) _ hp]
      rfl
    · have hp' : containsStr "직책" (normCellStr t) = false :=
        Bool.not_eq_true _ ▸ (by simpa using hp)
      have hstep : (writerStep st t).wtitle = none := by
        unfold writerStep
        split_ifs with h1 h2 h3
        · rw [hp'] at h1; simp at h1
        · exact h
        · exact h
        · exact h
      rw [List.foldl_cons, ih _ hstep,
        List.find?_cons_of_neg (p := fun t => containsStr "직책" (normCellStr t)) _
          (by simp [hp'])]

/-! ### Claim C8: extracted-field shape invariants -/

/-- C8 (corrected): each field of both document parsers is filled at most
once — once set, further cells never change it (monotonicity of every scan
step, hence first match wins); a document with no signatory label yields
`none` for all three signatory sub-fields without raising; and the two
SCHEDULE fields are never the empty string or a dash (they are
dash/empty-normalized to null).  The signatory sub-fields, by contrast, can
be empty strings (see the counterexample), so the original claim's
"never an empty string in the final result" holds only for the schedule
fields. -/
theorem parse_fields_shape_invariants :
    (∀ (cells : List String) (l : List (Nat × String)) (st : MainScanState) (v : String),
        st.rep = some v → (l.foldl (mainScanStep cells) st).rep = some v) ∧
    (∀ (cells : List String) (l : List (Nat × String)) (st : MainScanState) (v : String),
        st.addr = some v → (l.foldl (mainScanStep cells) st).addr = some v) ∧
    (∀ (l : List String) (st : WriterState) (v : String),
        st.wtitle = some v → (l.foldl writerStep st).wtitle = some v) ∧
    (∀ (l : List String) (st : WriterState) (v : String),
        st.wname = some v → (l.foldl writerStep st).wname = some v) ∧
    (∀ (l : List String) (st : WriterState) (v : String),
        st.wphone = some v → (l.foldl writerStep st).wphone = some v) ∧
    (∀ (xml : String),
        (∀ c ∈ cellsOf xml, containsStr "작성책임자" (normCellStr c) = false) →
        (parse_contact_fields xml).wtitle = none ∧
        (parse_contact_fields xml).wname = none ∧
        (parse_contact_fields xml).wphone = none) ∧
    (∀ (xml : String),
        ((parse_schedule_fields xml).pym ≠ some "" ∧
          (parse_schedule_fields xml).pym ≠ some "-") ∧
        ((parse_schedule_fields xml).lst ≠ some "" ∧
          (parse_schedule_fields xml).lst ≠ some "-")) := by
  refine ⟨?_, ?_, ?_, ?_, ?_, ?_, ?_⟩
  · intro cells l st v h
    exact foldl_pres_mem (mainScanStep cells) (fun s => s.rep = some v) l
      (fun s a _ hs => mainScanStep_rep_mono cells s a v hs) st h
  · intro cells l st v h
    exact foldl_pres_mem (mainScanStep cells) (fun s => s.addr = some v) l
      (fun s a _ hs => mainScanStep_addr_mono cells s a v hs) st h
  · intro l st v h
    exact foldl_pres_mem writerStep (fun s => s.wtitle = some v) l
      (fun s a _ hs => writerStep_title_mono s a v hs) st h
  · intro l st v h
    exact foldl_pres_mem writerStep (fun s => s.wname = some v) l
      (fun s a _ hs => writerStep_name_mono s a v hs) st h
  · intro l st v h
    exact foldl_pres_mem writerStep (fun s => s.wphone = some v) l
      (fun s a _ hs => writerStep_phone_mono s a v hs) st h
  · intro xml hno
    have hws : (mainScan (cellsOf xml)).writer_start = none := by
      unfold mainScan
      refine foldl_pres_mem (mainScanStep (cellsOf xml))
        (fun s => s.writer_start = none) _ ?_ _ rfl
      intro st ic hic hst
      have hcell := snd_mem_of_mem_enumFrom hic
      have hfalse := hno ic.2 hcell
      unfold mainScanStep
      split_ifs with h1 h2 h3
      · exact hst
      · exact hst
      · rw [hfalse] at h3; simp at h3
      · exact hst
    simp only [parse_contact_fields, contactFromCells]
    rw [hws]
    exact ⟨rfl, rfl, rfl⟩
  · intro xml
    unfold parse_schedule_fields
    by_cases hx : xml = ""
    · rw [if_pos hx]
      exact ⟨⟨by simp, by simp⟩, by simp, by simp⟩
    · rw [if_neg hx]
      constructor
      · cases h0 : searchAunit "PYM_DT".data xml.data with
        | some cap =>
          cases h1 : normDash (⟨stripEnds cap⟩ : String) with
          | some v =>
            have hnd := normDash_ne_strings (⟨stripEnds cap⟩ : String)
            rw [h1] at hnd
            simp only [h0, h1]
            exact ⟨hnd.1, hnd.2⟩
          | none =>
            simp only [h0, h1]
            cases h2 : fallbackValue ["납입일".data] xml.data with
            | some txt =>
              have hnd := normDash_ne_strings txt
              exact ⟨hnd.1, hnd.2⟩
            | none => exact ⟨by simp, by simp⟩
        | none =>
          simp only [h0]
          cases h2 : fallbackValue ["납입일".data] xml.data with
          | some txt =>
            have hnd := normDash_ne_strings txt
            exact ⟨hnd.1, hnd.2⟩
          | none => exact ⟨by simp, by simp⟩
      · cases h0 : searchAunit "LST_PLN_DT".data xml.data with
        | some cap =>
          cases h1 : normDash (⟨stripEnds cap⟩ : String) with
          | some v =>
            have hnd := normDash_ne_strings (⟨stripEnds cap⟩ : String)
            rw [h1] at hnd
            simp only [h0, h1]
            exact ⟨hnd.1, hnd.2⟩
          | none =>
            simp only [h0, h1]
            cases h2 : fallbackValue ["신주의".data, "상장".data, "예정일".data] xml.data with
            | some txt =>
              have hnd := normDash_ne_strings txt
              exact ⟨hnd.1, hnd.2⟩
            | none => exact ⟨by simp, by simp⟩
        | none =>
          simp only [h0]
          cases h2 : fallbackValue ["신주의".data, "상장".data, "예정일".data] xml.data with
          | some txt =>
            have hnd := normDash_ne_strings txt
            exact ⟨hnd.1, hnd.2⟩
          | none => exact ⟨by simp, by simp⟩

/-- Witness for C8 at concrete inputs: a set representative field survives a
further scan step; a document without the signatory label yields the three
nulls. -/
theorem parse_fields_shape_invariants_witness :
    ((⟨some "김", none, none⟩ : MainScanState).rep = some "김" ∧
      ([(0, "대표이사")].foldl (mainScanStep ["대표이사"])
        ⟨some "김", none, none⟩).rep = some "김") ∧
    ((∀ c ∈ cellsOf "<TD>안내문</TD>",
        containsStr "작성책임자" (normCellStr c) = false) ∧
      (parse_contact_fields "<TD>안내문</TD>").wtitle = none) :=
  ⟨⟨rfl, parse_fields_shape_invariants.1 ["대표이사"] [(0, "대표이사")]
      ⟨some "김", none, none⟩ "김" rfl⟩,
   ⟨by decide,
    (parse_fields_shape_invariants.2.2.2.2.2.1 "<TD>안내문</TD>" (by decide)).1⟩⟩

/-- Counterexample for C8 as stated: the final parsed result of a document
whose signatory-title cell is just the parenthetical echo `(직책)` carries
the EMPTY STRING (not null) in the title sub-field. -/
theorem contact_field_empty_string_counterexample :
    parse_contact_fields xmlEchoEmpty
      = ⟨none, none, some "", none, none⟩ := rfl

/-! ### Claim C9: the signatory-window scan -/

/-- C9 (corrected): once the signatory label cell is found at index `i`, the
scan window is the slice of AT MOST 11 subsequent cells (indices `i+1`
through `min(i+11, len-1)`, from `range(i+1, min(i+12, len))`), not 12; the
title sub-field value is the first window cell whose normalized text
contains the title sub-label, taken as THAT CELL's own text stripped of a
leading parenthetical label echo (not the next non-empty cell after it);
and when no sub-label occurs in the window all three sub-fields stay null —
cells beyond the 11-cell window never contribute. -/
theorem writer_window_scan (cells : List String) (i : Nat)
    (hws : (mainScan cells).writer_start = some i) :
    (contactFromCells cells).wtitle =
      (((cells.drop (i + 1)).take 11).find?
        (fun t => containsStr "직책" (normCellStr t))).map (stripEcho '직' '책') ∧
    ((∀ t ∈ (cells.drop (i + 1)).take 11,
        containsStr "직책" (normCellStr t) = false ∧
        containsStr "성명" (normCellStr t) = false ∧
        containsStr "전화" (normCellStr t) = false) →
      (contactFromCells cells).wtitle = none ∧
      (contactFromCells cells).wname = none ∧
      (contactFromCells cells).wphone = none) := by
  constructor
  · simp only [contactFromCells]
    rw [hws]
    exact writerScan_title_eq_find _ _ rfl
  · intro hall
    simp only [contactFromCells]
    rw [hws]
    have hnone : writerScan ((cells.drop (i + 1)).take 11) = ⟨none, none, none⟩ := by
      unfold writerScan
      refine foldl_pres_mem writerStep (fun s => s = ⟨none, none, none⟩) _ ?_ _ rfl
      intro st t ht hst
      rw [writerStep_skip st t (hall t ht).1 (hall t ht).2.1 (hall t ht).2.2, hst]
    refine ⟨?_, ?_, ?_⟩
    · show (writerScan ((cells.drop (i + 1)).take 11)).wtitle = none
      rw [hnone]
    · show (writerScan ((cells.drop (i + 1)).take 11)).wname = none
      rw [hnone]
    · show (writerScan ((cells.drop (i + 1)).take 11)).wphone = none
      rw [hnone]

/-- Witness for C9 at concrete inputs: with the signatory label in cell 0
and the echo-labelled title in cell 1, the code recovers the stripped value
of that cell. -/
theorem writer_window_scan_witness :
    (mainScan ["작성책임자", "(직책)부장"]).writer_start = some 0 ∧
    (contactFromCells ["작성책임자", "(직책)부장"]).wtitle
      = ((((["작성책임자", "(직책)부장"]).drop 1).take 11).find?
          (fun t => containsStr "직책" (normCellStr t))).map (stripEcho '직' '책') :=
  ⟨rfl, (writer_window_scan ["작성책임자", "(직책)부장"] 0 rfl).1⟩

set_option maxRecDepth 20000 in
/-- Counterexample for C9 as stated: a document whose title sub-label sits
in the 12th cell after the signatory label — inside a window of "up to 12
subsequent cells" — is NOT picked up: the code scans only 11 subsequent
cells and all sub-fields stay null. -/
theorem writer_window_12th_cell_unreached :
    (parse_contact_fields xmlWindow12).wtitle = none ∧
    (cellsOf xmlWindow12).length = 13 ∧
    ((cellsOf xmlWindow12).drop 12).map normCellStr = ["직책부장"] :=
  ⟨rfl, rfl, rfl⟩

end DartPipeline
